import Mathlib

/-!
Verification of the workout text parser and derived-analytics engine of the
ai-fitness-coach repository.  The Python source (`workout_parser.py` and the
analytics code embedded in `app.py`) is shallowly embedded below: strings are
`List Char`, machine integers are `Nat`/`Int`, Python `float` arithmetic on
weights is modelled over `ℚ` with Python's round-half-to-even, and Python
dicts keyed by strings become functions `List Char → Option _`.
-/

set_option maxRecDepth 4000

namespace FitnessCoach

/-! ### Basic string utilities mirroring Python's `str` methods -/

/-- Python whitespace characters (the ASCII ones `str.strip` removes). -/
def isSpaceC (c : Char) : Bool :=
  c == ' ' || c == '\t' || c == '\n' || c == '\x0d' || c == '\x0b' || c == '\x0c'

/-- `str.lstrip`-like: drop leading whitespace. -/
def lstripL (cs : List Char) : List Char := cs.dropWhile isSpaceC

/-- `str.rstrip`-like: drop trailing whitespace. -/
def rstripL (cs : List Char) : List Char := (cs.reverse.dropWhile isSpaceC).reverse

/-- Python `str.strip()`. -/
def pyStripL (cs : List Char) : List Char := rstripL (lstripL cs)

/-- Boolean prefix test (Python `str.startswith`). -/
def startsWithL : List Char → List Char → Bool
  | [], _ => true
  | _ :: _, [] => false
  | p :: ps, c :: cs => p == c && startsWithL ps cs

/-- Boolean suffix test (Python `str.endswith`). -/
def endsWithL (suf cs : List Char) : Bool := startsWithL suf.reverse cs.reverse

/-- Whether character `c` occurs in the string (Python `c in s`). -/
def containsC (c : Char) (cs : List Char) : Bool := cs.any (fun d => d == c)

/-- Whether `pat` occurs as a contiguous substring (Python `pat in s`). -/
def hasSubL (pat : List Char) : List Char → Bool
  | [] => startsWithL pat []
  | cs@(_ :: rest) => startsWithL pat cs || hasSubL pat rest

/-- Python `s.split(sep, 1)` when `sep` occurs: the pieces around the first
occurrence of `sep`; `none` when `sep` does not occur. -/
def splitFirstOn (sep : List Char) : List Char → Option (List Char × List Char)
  | [] => if startsWithL sep [] then some ([], []) else none
  | cs@(c :: rest) =>
    if startsWithL sep cs then some ([], cs.drop sep.length)
    else (splitFirstOn sep rest).map (fun p => (c :: p.1, p.2))

/-- Python `s.split(sep)` for a one-character separator (all occurrences). -/
def pySplitC (sep : Char) : List Char → List (List Char)
  | [] => [[]]
  | c :: rest =>
    if c == sep then [] :: pySplitC sep rest
    else
      match pySplitC sep rest with
      | [] => [[c]]
      | g :: gs => (c :: g) :: gs

/-- Value of a digit string (base 10), used as Python `int(s)` on digits. -/
def natOfDigits (cs : List Char) : Nat :=
  cs.foldl (fun a c => 10 * a + (c.toNat - 48)) 0

/-- Python `str.isdigit()` restricted to ASCII digits. -/
def pyIsdigit (cs : List Char) : Bool := !cs.isEmpty && cs.all Char.isDigit

/-- Decimal rendering of a natural number (Python `str(n)` / f-string). -/
def natStr (n : Nat) : List Char :=
  if h : n < 10 then [Char.ofNat (48 + n)]
  else natStr (n / 10) ++ [Char.ofNat (48 + n % 10)]
  termination_by n
  decreasing_by exact Nat.div_lt_self (by omega) (by omega)

/-- List maximum with 0 default (`max(l)` on a non-empty list of naturals). -/
def maxNat (l : List Nat) : Nat := l.foldl max 0

/-- Python `str.lower()` (ASCII). -/
def lowerL (cs : List Char) : List Char := cs.map Char.toLower

/-! ### Exercise-line parser (`workout_parser.parse_exercise_line`) -/

/-- A parsed set: `{'weight': w, 'reps': r}`. -/
structure ExSet where
  weight : Nat
  reps : Nat
deriving DecidableEq, Repr

/-- The dictionary returned by `parse_exercise_line`.  The bodyweight branch
of the Python code omits the `original_line` key, the weighted branch sets it;
this is modelled by the `Option`. -/
structure ParsedEx where
  exercise : List Char
  sets : List ExSet
  first_weight : Nat
  first_reps : Nat
  total_sets : Nat
  max_weight : Nat
  max_reps : Nat
  is_bodyweight : Bool
  original_line : Option (List Char)
deriving DecidableEq, Repr

/-- Characters allowed in the name group of the bodyweight regex
`[a-zA-Z\s\-]`. -/
def bwNameChar (c : Char) : Bool := c.isAlpha || isSpaceC c || c == '-'

/-- One comma-chunk of the rep tail `\d+(?:\s*,\s*\d+)*`: optional leading
whitespace (when the chunk follows a comma), one digit run, optional trailing
whitespace (when another comma follows). -/
def bwChunkOk (allowLead allowTrail : Bool) (cs : List Char) : Bool :=
  let a := if allowLead then cs.dropWhile isSpaceC else cs
  let d := a.takeWhile Char.isDigit
  let b := a.drop d.length
  !d.isEmpty && (if allowTrail then b.all isSpaceC else b.isEmpty)

/-- Chunks after the first one. -/
def bwChunksOk : List (List Char) → Bool
  | [] => true
  | [c] => bwChunkOk true false c
  | c :: rest => bwChunkOk true true c && bwChunksOk rest

/-- Whether `cs` fully matches `\d+(?:\s*,\s*\d+)*` (anchored at `$`). -/
def bwTailOk (cs : List Char) : Bool :=
  match pySplitC ',' cs with
  | [] => false
  | [c] => bwChunkOk false false c
  | c :: rest => bwChunkOk false true c && bwChunksOk rest

/-- Structural model of
`re.match(r'^([a-zA-Z\s\-]+?)\s+(\d+(?:\s*,\s*\d+)*)$', line)`.
The name group cannot contain digits and the rep group starts with one, so a
match decomposes the line at its first digit: everything before it is the lazy
name group followed by a non-empty whitespace run, and the rest matches the
rep tail.  On success the pair `(group 1, group 2)` is returned (the lazy
name group ends at the last non-whitespace character before the first digit;
a leading all-whitespace prefix cannot occur on entry since the line is
stripped, but the `max 1` keeps the model total and faithful to `+?`). -/
def bodyweightMatch (line : List Char) : Option (List Char × List Char) :=
  let pre := line.takeWhile (fun c => !c.isDigit)
  let tail := line.drop pre.length
  if tail.isEmpty then none
  else if !(pre.all bwNameChar) then none
  else
    let j := max (rstripL pre).length 1
    if j + 1 > pre.length then none
    else if !bwTailOk tail then none
    else some (pre.take j, tail)

/-- Model of `re.match(r'(\d+)\s*(?:\([^)]+\))?\s*\*', weight_reps_part)`:
a digit run, optional whitespace, an optional parenthesised qualifier,
optional whitespace, then `*`.  Returns the weight (group 1). -/
def weightHeadMatch (cs : List Char) : Option Nat :=
  let d := cs.takeWhile Char.isDigit
  if d.isEmpty then none
  else
    let r1 := (cs.drop d.length).dropWhile isSpaceC
    match r1 with
    | '(' :: r2 =>
      let q := r2.takeWhile (fun c => !(c == ')'))
      if q.isEmpty then none
      else
        match r2.drop q.length with
        | ')' :: r3 =>
          match r3.dropWhile isSpaceC with
          | '*' :: _ => some (natOfDigits d)
          | _ => none
        | _ => none
    | '*' :: _ => some (natOfDigits d)
    | _ => none

/-- Leftmost match of `re.search(r'(\d+)\s*\*\s*(\d+)', part)` attempted at
one position: a maximal digit run, optional whitespace, `*`, optional
whitespace, a digit run. -/
def wrTryAt (cs : List Char) : Option (Nat × Nat) :=
  let d1 := cs.takeWhile Char.isDigit
  if d1.isEmpty then none
  else
    match (cs.drop d1.length).dropWhile isSpaceC with
    | '*' :: r2 =>
      let d2 := (r2.dropWhile isSpaceC).takeWhile Char.isDigit
      if d2.isEmpty then none else some (natOfDigits d1, natOfDigits d2)
    | _ => none

/-- `re.search(r'(\d+)\s*\*\s*(\d+)', part)`: scan left to right. -/
def reSearchWR : List Char → Option (Nat × Nat)
  | [] => none
  | cs@(_ :: rest) =>
    match wrTryAt cs with
    | some p => some p
    | none => reSearchWR rest

/-- Processing one comma-separated token of the rep list (the loop body over
`parts`): a weight-change token `w * r` updates the current weight, a bare
digit token adds a set at the current weight, anything else is skipped. -/
def processPart (st : Nat × List ExSet) (part : List Char) : Nat × List ExSet :=
  if containsC '*' part then
    match reSearchWR part with
    | some (w, r) => (w, st.2 ++ [⟨w, r⟩])
    | none => st
  else if pyIsdigit part then (st.1, st.2 ++ [⟨st.1, natOfDigits part⟩])
  else st

/-- Fold over stripped comma-tokens. -/
def processParts (st : Nat × List ExSet) (parts : List (List Char)) :
    Nat × List ExSet :=
  parts.foldl processPart st

/-- Parsing the rep part after the first `*`.  With a `;` present, the string
is split into weight groups first and each group (stripped) is split on `,`;
otherwise a single comma split.  The current weight persists across groups. -/
def parseReps (fw : Nat) (repsPart : List Char) : List ExSet :=
  if containsC ';' repsPart then
    ((pySplitC ';' repsPart).foldl
      (fun st g => processParts st ((pySplitC ',' (pyStripL g)).map pyStripL))
      (fw, [])).2
  else
    (processParts (fw, []) ((pySplitC ',' repsPart).map pyStripL)).2

/-- String constants. -/
def sDash : List Char := [' ', '-', ' ']

def sSKIP : List Char := ['S', 'K', 'I', 'P']

def sRun : List Char := ['r', 'u', 'n']

/-- The weighted branch of `parse_exercise_line` (after the bodyweight regex
failed): split on the first `' - '`, match the weight head, parse the reps. -/
def weightPath (line : List Char) : Option ParsedEx :=
  match splitFirstOn sDash line with
  | none => none
  | some (p0, p1) =>
    let exName := pyStripL p0
    let wrp := pyStripL p1
    match weightHeadMatch wrp with
    | none => none
    | some fw =>
      let repsPart :=
        match splitFirstOn ['*'] wrp with
        | some pr => pr.2
        | none => []
      match parseReps fw repsPart with
      | [] => none
      | s0 :: rest =>
        some { exercise := exName
               sets := s0 :: rest
               first_weight := fw
               first_reps := s0.reps
               total_sets := (s0 :: rest).length
               max_weight := maxNat ((s0 :: rest).map ExSet.weight)
               max_reps := maxNat ((s0 :: rest).map ExSet.reps)
               is_bodyweight := fw == 0
               original_line := some line }

/-- `parse_exercise_line`. -/
def parseLineL (input : List Char) : Option ParsedEx :=
  let line := pyStripL input
  if line.isEmpty then none
  else if startsWithL sSKIP line || startsWithL sRun line then none
  else
    match bodyweightMatch line with
    | some (g1, repsStr) =>
      let reps := ((pySplitC ',' repsStr).map pyStripL).filterMap
        (fun r => if pyIsdigit r then some (natOfDigits r) else none)
      match reps with
      | r0 :: _ =>
        some { exercise := pyStripL g1
               sets := reps.map (fun r => ⟨0, r⟩)
               first_weight := 0
               first_reps := r0
               total_sets := reps.length
               max_weight := 0
               max_reps := maxNat reps
               is_bodyweight := true
               original_line := none }
      | [] => weightPath line
    | none => weightPath line

/-- The result of `parse_workout_text`. -/
structure ParsedWorkout where
  exercises : List ParsedEx
  exercise_count : Nat
  total_sets : Nat
deriving DecidableEq, Repr

/-- `parse_workout_text`: split into non-blank stripped lines, parse each,
keep the successes. -/
def parseWorkoutTextL (txt : List Char) : ParsedWorkout :=
  let lines := ((pySplitC '\n' txt).map pyStripL).filter (fun l => !l.isEmpty)
  let exs := lines.filterMap parseLineL
  { exercises := exs
    exercise_count := exs.length
    total_sets := (exs.map ParsedEx.total_sets).foldl (· + ·) 0 }

/-! ### Progressive-overload arithmetic (`app.py`)

Python float arithmetic on the small weight grid is modelled over `ℚ`;
`round` is Python 3's round-half-to-even and `int()` truncates toward 0. -/

/-- Python 3 `round(q)` (banker's rounding) over `ℚ`. -/
def pyRound (q : ℚ) : ℤ :=
  if q - (⌊q⌋ : ℚ) < 1 / 2 then ⌊q⌋
  else if 1 / 2 < q - (⌊q⌋ : ℚ) then ⌊q⌋ + 1
  else if ⌊q⌋ % 2 = 0 then ⌊q⌋ else ⌊q⌋ + 1

/-- Python `int(q)`: truncation toward zero. -/
def pyTrunc (q : ℚ) : ℤ :=
  if q < 0 then -⌊-q⌋ else ⌊q⌋

/-- Round `w` to the nearest grid point: grid 2.5 below 50, grid 5 at 50 and
above (the `last_weight < 50` branches of the source), then `int()`. -/
def gridRound (lastWeight : Nat) (w : ℚ) : ℤ :=
  if lastWeight < 50 then pyTrunc ((pyRound (w / (5 / 2)) : ℚ) * (5 / 2))
  else pyTrunc ((pyRound (w / 5) : ℚ) * 5)

/-- The weighted-history suggestion of the `/api/progressive-overload`
endpoint (`progressive_overload`, app.py lines 2868-2903): given the last
performance `(last_weight, last_reps)` and `days_ago`, the suggested
`(new_weight, new_reps)`. -/
def progressiveOverloadSuggest (lw lr : Nat) (days : Int) : Int × Nat :=
  if days ≤ 14 then
    if lr < 10 ∧ lr + 1 ≤ 12 then ((lw : Int), min (lr + 1) 12)
    else if 10 ≤ lr ∧ lr < 12 then
      (gridRound lw ((lw : ℚ) + (lw : ℚ) * (25 / 1000)), min lr 12)
    else
      (gridRound lw ((lw : ℚ) + (lw : ℚ) * (25 / 1000)), 12)
  else if days ≤ 30 then ((lw : Int), lr)
  else
    (max 1 (gridRound lw ((lw : ℚ) - (lw : ℚ) * (5 / 100))),
     if lr > 1 then max 1 (lr - 1) else lr)

/-- The weighted-history suggestion of the copy-workout suggestions path
(`progressive_overload_suggestions`, app.py lines 2728-2771).  Unlike
`progressiveOverloadSuggest` this path forces a minimum absolute increment
when rounding failed to exceed `last_weight`. -/
def copySuggestionsSuggest (lw lr : Nat) (days : Int) : Int × Nat :=
  if days ≤ 14 then
    if lr < 6 then ((lw : Int), min (lr + 1) 6)
    else
      let inc : ℚ := max ((lw : ℚ) * (25 / 1000)) (5 / 2)
      let sw : Int := gridRound lw ((lw : ℚ) + inc)
      let sw : Int :=
        if sw ≤ (lw : Int) then
          pyTrunc ((lw : ℚ) + (if lw < 50 then (5 / 2 : ℚ) else 5))
        else sw
      (sw, 5)
  else if days ≤ 30 then ((lw : Int), lr)
  else
    (max 1 (gridRound lw ((lw : ℚ) - (lw : ℚ) * (5 / 100))),
     if lr > 1 then max 1 (lr - 1) else lr)

/-! ### Exercise-name normalisation (`workout_parser.normalize_exercise_name`)

The static `exercise_mapping.json` table is a parameter of the embedding. -/

/-- One entry of the mapping table. -/
structure MapEntry where
  normalized : List Char
  muscle_groups : List (List Char)
  variations : List (List Char)
deriving DecidableEq, Repr

/-- The `mappings` dictionary as an ordered association list. -/
def ExMapping := List (List Char × MapEntry)

/-- `normalize_exercise_name`: exact lowered-key lookup first, then scan each
entry's variations for an exact or substring match, else the original name
with no groups. -/
def normalizeExerciseName (mapping : ExMapping) (name : List Char) :
    List Char × List (List Char) :=
  let lo := pyStripL (lowerL name)
  match (mapping.find? (fun p => p.1 == lo)).map Prod.snd with
  | some e => (e.normalized, e.muscle_groups)
  | none =>
    match mapping.find? (fun p =>
        p.2.variations.any (fun v => lowerL v == lo || hasSubL (lowerL v) lo)) with
    | some p => (p.2.normalized, p.2.muscle_groups)
    | none => (name, [])

/-! ### Search-index incremental update (`app.py update_index_for_workout`) -/

/-- The search-index blob: the three rule-based category lists, the two
language-model category lists, and the `_metadata` block (`hasMeta` models
presence of the `_metadata` key; an absent/empty index is `hasMeta = false`). -/
structure SIndex where
  pr : List Nat
  chest : List Nat
  fullBody : List Nat
  legDay : List Nat
  upperBody : List Nat
  hasMeta : Bool
  metaHash : List Char
  metaUpdated : List Char
deriving DecidableEq, Repr

/-- Python `list.remove(x)` guarded by `x in l`: drop the first occurrence. -/
def removeOnce : List Nat → Nat → List Nat
  | [], _ => []
  | a :: r, x => if a = x then r else a :: removeOnce r x

/-- Append `pos` unless already present (the `if workout_index not in ...`
guard before `append`). -/
def addUnlessMem (l : List Nat) (pos : Nat) : List Nat :=
  if l.contains pos then l else l ++ [pos]

/-- The muscle groups of one workout as collected into a Python `set`,
modelled as a duplicate-free list in first-seen order. -/
def workoutGroups (mapping : ExMapping) (exs : List ParsedEx) :
    List (List Char) :=
  exs.foldl (fun acc ex =>
    (normalizeExerciseName mapping ex.exercise).2.foldl
      (fun a g => if a.contains g then a else a ++ [g]) acc) []

/-- `update_index_for_workout(workout_index, workout_data, operation)`.
`curHash`/`curUpd` stand for `get_workout_hash()` and `datetime.now()`. -/
def updateIndexForWorkout (mapping : ExMapping) (idx : SIndex) (pos : Nat)
    (hasPr : Bool) (text : List Char) (op : List Char)
    (curHash curUpd : List Char) : SIndex :=
  if !idx.hasMeta then idx
  else
    let idx1 :=
      if op == (("add").toList) || op == (("update").toList) then
        let pr1 := removeOnce idx.pr pos
        let ch1 := removeOnce idx.chest pos
        let fb1 := removeOnce idx.fullBody pos
        let pr2 := if hasPr then addUnlessMem pr1 pos else pr1
        let exs := (parseWorkoutTextL text).exercises
        if !exs.isEmpty then
          let hasChest := exs.any (fun ex =>
            ((normalizeExerciseName mapping ex.exercise).2).contains
              (("chest").toList))
          let ch2 := if hasChest then addUnlessMem ch1 pos else ch1
          let fb2 := if 3 ≤ (workoutGroups mapping exs).length then
              addUnlessMem fb1 pos else fb1
          { idx with pr := pr2, chest := ch2, fullBody := fb2 }
        else { idx with pr := pr2, chest := ch1, fullBody := fb1 }
      else if op == (("remove").toList) then
        { idx with pr := removeOnce idx.pr pos
                   chest := removeOnce idx.chest pos
                   fullBody := removeOnce idx.fullBody pos }
      else idx
    { idx1 with metaHash := curHash, metaUpdated := curUpd }

/-! ### Recovery status (`app.py recovery_check`) -/

/-- The fixed canonical muscle-group list of `recovery_check`. -/
def allGroups : List (List Char) :=
  [ ("chest").toList, ("back").toList, ("shoulders").toList,
    ("arms").toList, ("biceps").toList, ("triceps").toList,
    ("legs").toList, ("glutes").toList, ("calves").toList,
    ("core").toList, ("abs").toList ]

/-- The `muscle_group_last_trained` dictionary built from (group, days-ago)
observations: keep the smallest days-ago per group (strict `<` update). -/
def lastTrainedFold (obs : List (List Char × Int)) :
    List Char → Option Int :=
  obs.foldl
    (fun m p g =>
      if g = p.1 then
        match m p.1 with
        | none => some p.2
        | some d => if p.2 < d then some p.2 else some d
      else m g)
    (fun _ => none)

/-- `too_soon`: groups trained 0-1 days ago (`days <= 1`). -/
def tooSoonB (lt : List Char → Option Int) : List (List Char × Int) :=
  allGroups.filterMap (fun g =>
    match lt g with
    | some d => if d ≤ 1 then some (g, d) else none
    | none => none)

/-- `optimal`: `elif days <= 3`. -/
def optimalB (lt : List Char → Option Int) : List (List Char × Int) :=
  allGroups.filterMap (fun g =>
    match lt g with
    | some d => if ¬(d ≤ 1) ∧ d ≤ 3 then some (g, d) else none
    | none => none)

/-- `ready`: `elif days <= 6`. -/
def readyB (lt : List Char → Option Int) : List (List Char × Int) :=
  allGroups.filterMap (fun g =>
    match lt g with
    | some d => if ¬(d ≤ 3) ∧ d ≤ 6 then some (g, d) else none
    | none => none)

/-- `neglected` before deduplication: the `else` branch (`7+` days) appends
`(group, days)`, a group absent from the map appends `(group, None)`. -/
def neglectedB (lt : List Char → Option Int) :
    List (List Char × Option Int) :=
  allGroups.filterMap (fun g =>
    match lt g with
    | some d => if ¬(d ≤ 6) then some (g, some d) else none
    | none => some (g, none))

/-- The deduplication pass: drop the generic `arms` entry when `biceps` or
`triceps` also occurs in the neglected list. -/
def filteredNeglected (lt : List Char → Option Int) :
    List (List Char × Option Int) :=
  (neglectedB lt).filter (fun p =>
    !(p.1 == (("arms").toList) &&
      ((neglectedB lt).any (fun q => q.1 == (("biceps").toList)) ||
       (neglectedB lt).any (fun q => q.1 == (("triceps").toList)))))

/-! ### Date parsing (`datetime.strptime` over the fixed format list) -/

/-- A Python `datetime` restricted to the fields the accepted formats can
set (the formats carry no seconds). -/
structure PyDateTime where
  year : Nat
  month : Nat
  day : Nat
  hour : Nat
  minute : Nat
deriving DecidableEq, Repr

/-- The tokens the eight accepted formats are built from. -/
inductive FmtTok where
  | tM | tD | tY2 | tY4 | tH | tI | tMIN | tP
  | lit (c : Char)
  | tWS
deriving DecidableEq, Repr

/-- Digit value of an ASCII digit. -/
def dv (c : Char) : Nat := c.toNat - 48

/-- Candidates for `%m` (`1[0-2]|0[1-9]|[1-9]`), in regex alternation
order; each candidate is (value, rest of string). -/
def candM : List Char → List (Nat × List Char)
  | c1 :: c2 :: r =>
    (if c1 = '1' ∧ '0' ≤ c2 ∧ c2 ≤ '2' then [(10 + dv c2, r)] else []) ++
    (if c1 = '0' ∧ '1' ≤ c2 ∧ c2 ≤ '9' then [(dv c2, r)] else []) ++
    (if '1' ≤ c1 ∧ c1 ≤ '9' then [(dv c1, c2 :: r)] else [])
  | [c1] => if '1' ≤ c1 ∧ c1 ≤ '9' then [(dv c1, [])] else []
  | [] => []

/-- Candidates for `%d` (`3[01]|[12]\d|0[1-9]|[1-9]| [1-9]`). -/
def candD : List Char → List (Nat × List Char)
  | c1 :: c2 :: r =>
    (if c1 = '3' ∧ '0' ≤ c2 ∧ c2 ≤ '1' then [(30 + dv c2, r)] else []) ++
    (if ('1' ≤ c1 ∧ c1 ≤ '2') ∧ c2.isDigit then [(10 * dv c1 + dv c2, r)] else []) ++
    (if c1 = '0' ∧ '1' ≤ c2 ∧ c2 ≤ '9' then [(dv c2, r)] else []) ++
    (if '1' ≤ c1 ∧ c1 ≤ '9' then [(dv c1, c2 :: r)] else []) ++
    (if c1 = ' ' ∧ '1' ≤ c2 ∧ c2 ≤ '9' then [(dv c2, r)] else [])
  | [c1] => if '1' ≤ c1 ∧ c1 ≤ '9' then [(dv c1, [])] else []
  | [] => []

/-- Candidates for `%y` (`\d\d`), already mapped through Python's century
rule (00-68 → 2000s, 69-99 → 1900s). -/
def candY2 : List Char → List (Nat × List Char)
  | c1 :: c2 :: r =>
    if c1.isDigit ∧ c2.isDigit then
      let v := 10 * dv c1 + dv c2
      [((if v ≤ 68 then 2000 + v else 1900 + v), r)]
    else []
  | _ => []

/-- Candidates for `%Y` (`\d\d\d\d`). -/
def candY4 : List Char → List (Nat × List Char)
  | c1 :: c2 :: c3 :: c4 :: r =>
    if c1.isDigit ∧ c2.isDigit ∧ c3.isDigit ∧ c4.isDigit then
      [(1000 * dv c1 + 100 * dv c2 + 10 * dv c3 + dv c4, r)]
    else []
  | _ => []

/-- Candidates for `%H` (`2[0-3]|[0-1]\d|\d`). -/
def candH : List Char → List (Nat × List Char)
  | c1 :: c2 :: r =>
    (if c1 = '2' ∧ '0' ≤ c2 ∧ c2 ≤ '3' then [(20 + dv c2, r)] else []) ++
    (if ('0' ≤ c1 ∧ c1 ≤ '1') ∧ c2.isDigit then [(10 * dv c1 + dv c2, r)] else []) ++
    (if c1.isDigit then [(dv c1, c2 :: r)] else [])
  | [c1] => if c1.isDigit then [(dv c1, [])] else []
  | [] => []

/-- Candidates for `%I` (`1[0-2]|0[1-9]|[1-9]`). -/
def candI : List Char → List (Nat × List Char)
  | c1 :: c2 :: r =>
    (if c1 = '1' ∧ '0' ≤ c2 ∧ c2 ≤ '2' then [(10 + dv c2, r)] else []) ++
    (if c1 = '0' ∧ '1' ≤ c2 ∧ c2 ≤ '9' then [(dv c2, r)] else []) ++
    (if '1' ≤ c1 ∧ c1 ≤ '9' then [(dv c1, c2 :: r)] else [])
  | [c1] => if '1' ≤ c1 ∧ c1 ≤ '9' then [(dv c1, [])] else []
  | [] => []

/-- Candidates for `%M` (`[0-5]\d|\d`). -/
def candMIN : List Char → List (Nat × List Char)
  | c1 :: c2 :: r =>
    (if ('0' ≤ c1 ∧ c1 ≤ '5') ∧ c2.isDigit then [(10 * dv c1 + dv c2, r)] else []) ++
    (if c1.isDigit then [(dv c1, c2 :: r)] else [])
  | [c1] => if c1.isDigit then [(dv c1, [])] else []
  | [] => []

/-- Candidates for `%p` (`AM|PM`, case-insensitive): 0 = AM, 1 = PM. -/
def candP : List Char → List (Nat × List Char)
  | c1 :: c2 :: r =>
    if c1.toUpper = 'A' ∧ c2.toUpper = 'M' then [(0, r)]
    else if c1.toUpper = 'P' ∧ c2.toUpper = 'M' then [(1, r)]
    else []
  | _ => []

/-- Candidates for one format token. -/
def candsOf : FmtTok → List Char → List (Nat × List Char)
  | .tM, cs => candM cs
  | .tD, cs => candD cs
  | .tY2, cs => candY2 cs
  | .tY4, cs => candY4 cs
  | .tH, cs => candH cs
  | .tI, cs => candI cs
  | .tMIN, cs => candMIN cs
  | .tP, cs => candP cs
  | .lit c, cs =>
    match cs with
    | d :: r => if d = c then [(0, r)] else []
    | [] => []
  | .tWS, cs =>
    match cs with
    | d :: _ => if isSpaceC d then [(0, cs.dropWhile isSpaceC)] else []
    | [] => []

/-- The partially filled `strptime` result. -/
structure StAcc where
  y : Option Nat
  mo : Option Nat
  d : Option Nat
  h24 : Option Nat
  h12 : Option Nat
  mi : Option Nat
  pm : Option Bool
deriving DecidableEq, Repr

/-- Store a matched token value. -/
def applyTok (t : FmtTok) (v : Nat) (a : StAcc) : StAcc :=
  match t with
  | .tM => { a with mo := some v }
  | .tD => { a with d := some v }
  | .tY2 => { a with y := some v }
  | .tY4 => { a with y := some v }
  | .tH => { a with h24 := some v }
  | .tI => { a with h12 := some v }
  | .tMIN => { a with mi := some v }
  | .tP => { a with pm := some (v = 1) }
  | .lit _ => a
  | .tWS => a

/-- Match a token list against a string, trying candidates in regex
alternation order; the whole string must be consumed (`strptime` rejects
unconverted trailing data). -/
def matchToks : List FmtTok → List Char → StAcc → Option StAcc
  | [], cs, a => if cs.isEmpty then some a else none
  | t :: ts, cs, a =>
    (candsOf t cs).findSome? (fun p => matchToks ts p.2 (applyTok t p.1 a))

def isLeapYear (y : Nat) : Bool :=
  (y % 4 = 0 && y % 100 ≠ 0) || y % 400 = 0

def daysInMonth (y m : Nat) : Nat :=
  if m = 2 then (if isLeapYear y then 29 else 28)
  else if m = 4 ∨ m = 6 ∨ m = 9 ∨ m = 11 then 30
  else 31

/-- Build the `datetime` (the constructor validates the day against the
month; `%I`/`%p` combine per `strptime`: 12 AM → 0, 12 PM → 12). -/
def finalizeAcc (a : StAcc) : Option PyDateTime :=
  let y := a.y.getD 1900
  let mo := a.mo.getD 1
  let dd := a.d.getD 1
  let mi := a.mi.getD 0
  let hour :=
    match a.h24, a.h12, a.pm with
    | some h, _, _ => h
    | none, some h12, some true => if h12 = 12 then 12 else h12 + 12
    | none, some h12, some false => if h12 = 12 then 0 else h12
    | none, some h12, none => h12
    | none, none, _ => 0
  if 1 ≤ dd ∧ dd ≤ daysInMonth y mo then some ⟨y, mo, dd, hour, mi⟩ else none

/-- `datetime.strptime(s, fmt)` for one format. -/
def strptimeF (fmt : List FmtTok) (s : List Char) : Option PyDateTime :=
  (matchToks fmt s ⟨none, none, none, none, none, none, none⟩).bind finalizeAcc

/-- The eight accepted formats, in source order:
`'%m/%d/%y %I:%M %p', '%m/%d/%Y %I:%M %p', '%m/%d/%y %H:%M',
'%m/%d/%Y %H:%M', '%m/%d/%y', '%Y-%m-%d', '%m-%d-%y', '%m/%d/%Y'`. -/
def acceptedFormats : List (List FmtTok) :=
  [ [.tM, .lit '/', .tD, .lit '/', .tY2, .tWS, .tI, .lit ':', .tMIN, .tWS, .tP],
    [.tM, .lit '/', .tD, .lit '/', .tY4, .tWS, .tI, .lit ':', .tMIN, .tWS, .tP],
    [.tM, .lit '/', .tD, .lit '/', .tY2, .tWS, .tH, .lit ':', .tMIN],
    [.tM, .lit '/', .tD, .lit '/', .tY4, .tWS, .tH, .lit ':', .tMIN],
    [.tM, .lit '/', .tD, .lit '/', .tY2],
    [.tY4, .lit '-', .tM, .lit '-', .tD],
    [.tM, .lit '-', .tD, .lit '-', .tY2],
    [.tM, .lit '/', .tD, .lit '/', .tY4] ]

/-- Days since the civil epoch (proleptic Gregorian), floor-division based. -/
def daysFromCivil (y m d : Int) : Int :=
  let y1 := if m ≤ 2 then y - 1 else y
  let era := Int.fdiv y1 400
  let yoe := y1 - era * 400
  let doy := Int.fdiv (153 * (if 2 < m then m - 3 else m + 9) + 2) 5 + d - 1
  let doe := yoe * 365 + Int.fdiv yoe 4 - Int.fdiv yoe 100 + doy
  era * 146097 + doe - 719468

/-- Minutes since the epoch; the accepted formats have no seconds, so this
is an exact model of `datetime` ordering and differences. -/
def toMinutes (t : PyDateTime) : Int :=
  daysFromCivil (t.year : Int) (t.month : Int) (t.day : Int) * 1440 +
    (t.hour : Int) * 60 + (t.minute : Int)

/-- `(a - b).days` of a Python `timedelta`: floor of the minute difference. -/
def tdDays (a b : PyDateTime) : Int := Int.fdiv (toMinutes a - toMinutes b) 1440

/-- Python `datetime` `<`. -/
def dtLt (a b : PyDateTime) : Prop := toMinutes a < toMinutes b

instance (a b : PyDateTime) : Decidable (dtLt a b) := by
  unfold dtLt; infer_instance

/-- The date-parsing loop of `build_search_index`/`recovery_check`: try each
format in order; a parse whose year exceeds `today.year + 1` or that lies
more than one day in the future is discarded (`continue`) and the next
format is tried; `None` when every format fails. -/
def parseWorkoutDate (today : PyDateTime) (s : List Char) : Option PyDateTime :=
  if s.isEmpty then none
  else
    acceptedFormats.findSome? (fun fmt =>
      match strptimeF fmt s with
      | some dtv =>
        if today.year + 1 < dtv.year ∨ 1 < tdDays dtv today then none
        else some dtv
      | none => none)

/-! ### Temporal history reconstruction and PR detection
(`build_search_index`, app.py lines 600-676) -/

/-- A stored workout entry. -/
structure Workout where
  date : List Char
  text : List Char
deriving DecidableEq, Repr

/-- The per-exercise history record. -/
structure HistRec where
  best_weight : Nat
  best_reps : Nat
  best_weight_reps : Nat
deriving DecidableEq, Repr

/-- The `history_before` dictionary. -/
def HistMap := List Char → Option HistRec

/-- The exercise key: `ex['exercise'].lower().strip()`. -/
def exKey (ex : ParsedEx) : List Char := pyStripL (lowerL ex.exercise)

/-- Folding one parsed exercise into the history accumulator (the loop body
over `prev_parsed_exercises`). -/
def histStep (h : HistMap) (ex : ParsedEx) : HistMap :=
  let k := exKey ex
  let mw := ex.max_weight
  let fr := ex.first_reps
  match h k with
  | none =>
    fun k2 => if k2 = k then
      some ⟨mw, fr, if 0 < mw then fr else 0⟩ else h k2
  | some r =>
    let r1 := if r.best_weight < mw then
      { r with best_weight := mw, best_weight_reps := fr } else r
    let r2 := if r1.best_reps < fr then { r1 with best_reps := fr } else r1
    fun k2 => if k2 = k then some r2 else h k2

/-- Fold a record list into a history map. -/
def histFold (recs : List ParsedEx) : HistMap :=
  recs.foldl histStep (fun _ => none)

/-- The parsed exercises of the workouts whose date parses and is strictly
earlier than the reference date, in iteration order. -/
def eligibleRecords (today : PyDateTime) (workouts : List Workout)
    (refDate : PyDateTime) : List ParsedEx :=
  (workouts.filter (fun w =>
    match parseWorkoutDate today w.date with
    | some d => decide (dtLt d refDate)
    | none => false)).flatMap
    (fun w => (parseWorkoutTextL w.text).exercises)

/-- `history_before` reconstructed for a reference date. -/
def buildHistoryBefore (today : PyDateTime) (workouts : List Workout)
    (refDate : PyDateTime) : HistMap :=
  histFold (eligibleRecords today workouts refDate)

/-- The per-exercise PR / strength-increase contribution (the loop body over
`current_parsed_exercises`): `(sets has_pr, sets has_strength_increase)`. -/
def exerciseFlagStep (h : HistMap) (ex : ParsedEx) : Bool × Bool :=
  let k := exKey ex
  let cw := ex.max_weight
  let cr := ex.first_reps
  let isBw := ex.is_bodyweight || cw == 0
  match h k with
  | none => (false, false)
  | some hist =>
    if isBw then (decide (hist.best_reps < cr), false)
    else if hist.best_weight < cw then (true, false)
    else if cw = hist.best_weight ∧ hist.best_weight_reps < cr then
      (false, true)
    else (false, false)

/-- One iteration of the outer loop of `build_search_index` for a single
workout: its `(has_pr, has_strength_increase)` flags and the reconstructed
history; an unparseable reference date yields `False` flags and an empty
history (the history block is skipped entirely). -/
def evalWorkoutPR (today : PyDateTime) (workouts : List Workout)
    (w : Workout) : Bool × Bool × HistMap :=
  match parseWorkoutDate today w.date with
  | none => (false, false, fun _ => none)
  | some d =>
    let hist := buildHistoryBefore today workouts d
    let flags := (parseWorkoutTextL w.text).exercises.foldl
      (fun acc ex =>
        let p := exerciseFlagStep hist ex
        (acc.1 || p.1, acc.2 || p.2))
      (false, false)
    (flags.1, flags.2, hist)

/-- The days-ago observations of one group, in order. -/
def daysList (obs : List (List Char × Int)) (g : List Char) : List Int :=
  (obs.filter (fun p => p.1 == g)).map Prod.snd

/-- The running-minimum step of the `muscle_group_last_trained` update. -/
def stepMin (acc : Option Int) (v : Int) : Option Int :=
  match acc with
  | none => some v
  | some d => if v < d then some v else some d

/-! ### Auxiliary definitions for the history claims -/

/-- The eligible records matching one exercise key. -/
def matchingRecords (recs : List ParsedEx) (k : List Char) : List ParsedEx :=
  recs.filter (fun e => exKey e == k)

/-- The first record attaining a given max weight. -/
def firstAttainer (recs : List ParsedEx) (bw : Nat) : Option ParsedEx :=
  recs.find? (fun e => e.max_weight == bw)

/-- Claim-side reading (C2): the rep counts actually observed at weight `w`
across the sets of the records. -/
def repsObservedAtWeight (recs : List ParsedEx) (w : Nat) : List Nat :=
  (recs.flatMap (fun e => e.sets)).filterMap
    (fun s => if s.weight = w then some s.reps else none)

/-- Claim-side reading (C2): the maximum rep count seen in any set. -/
def maxRepsSeen (recs : List ParsedEx) : Nat :=
  maxNat ((recs.flatMap (fun e => e.sets)).map ExSet.reps)

/-! ### The weight-times-reps grammar (spec 4.1) as a generator

Spec property 1 quantifies over "all generated grammar-conforming strings";
`GLine` is that generator: a name, a weight, an optional parenthesised
qualifier, and a rep list of weight groups (`;`-separated) of tokens
(`,`-separated), each token a bare rep count or a weight-change `w * r`. -/

inductive RTok where
  | bare (n : Nat)
  | wch (w : Nat) (n : Nat)
deriving DecidableEq, Repr

structure GLine where
  name : List Char
  weight : Nat
  qual : Option (List Char)
  groups : List (List RTok)
deriving DecidableEq, Repr

/-- Join a list of strings with a separator. -/
def joinSep (sep : List Char) : List (List Char) → List Char
  | [] => []
  | [x] => x
  | x :: y :: r => x ++ sep ++ joinSep sep (y :: r)

def renderTok : RTok → List Char
  | .bare n => natStr n
  | .wch w n => natStr w ++ [' ', '*', ' '] ++ natStr n

def renderGroup (g : List RTok) : List Char :=
  joinSep [',', ' '] (g.map renderTok)

def renderQual : Option (List Char) → List Char
  | none => []
  | some q => [' ', '('] ++ q ++ [')']

/-- The canonical rendering of a grammar line. -/
def renderLine (g : GLine) : List Char :=
  g.name ++ sDash ++ natStr g.weight ++ renderQual g.qual ++
    [' ', '*', ' '] ++ joinSep [';', ' '] (g.groups.map renderGroup)

/-- Well-formedness of a generated line: the name is non-empty, stripped,
contains no `' - '`, does not start with a skip marker, and does not end in
`' -'`; a qualifier is non-empty and free of `)` and `*`; the rep list is a
non-empty list of non-empty groups. -/
def GOkB (g : GLine) : Bool :=
  !g.name.isEmpty && (pyStripL g.name == g.name) &&
  !hasSubL sDash g.name &&
  !startsWithL sSKIP g.name && !startsWithL sRun g.name &&
  !endsWithL [' ', '-'] g.name &&
  (match g.qual with
   | none => true
   | some q => !q.isEmpty && q.all (fun c => !(c == ')') && !(c == '*'))) &&
  !g.groups.isEmpty && g.groups.all (fun gr => !gr.isEmpty)

/-- The semantics of one token: a bare count is a set at the current weight,
a weight change updates the current weight. -/
def semTokStep (st : Nat × List ExSet) (t : RTok) : Nat × List ExSet :=
  match t with
  | .bare n => (st.1, st.2 ++ [⟨st.1, n⟩])
  | .wch w n => (w, st.2 ++ [⟨w, n⟩])

/-- The sets denoted by a rep list, starting from the header weight; the
current weight persists across group boundaries. -/
def semAll (fw : Nat) (groups : List (List RTok)) : List ExSet :=
  (groups.foldl (fun st gr => gr.foldl semTokStep st) (fw, [])).2

/-- The record `parse_exercise_line` produces on a rendered grammar line. -/
def expectedRec (g : GLine) : ParsedEx :=
  let sets := semAll g.weight g.groups
  { exercise := g.name
    sets := sets
    first_weight := g.weight
    first_reps := (sets.headD ⟨0, 0⟩).reps
    total_sets := sets.length
    max_weight := maxNat (sets.map ExSet.weight)
    max_reps := maxNat (sets.map ExSet.reps)
    is_bodyweight := g.weight == 0
    original_line := some (renderLine g) }

/-- The reconstruction of claim C5:
`"<exercise> - <first_weight> * <first_reps>"`. -/
def roundtripLine (r : ParsedEx) : List Char :=
  r.exercise ++ sDash ++ natStr r.first_weight ++ [' ', '*', ' '] ++
    natStr r.first_reps

/-- The one-token grammar line a roundtrip string is an instance of. -/
def simpleGLine (name : List Char) (w r : Nat) : GLine :=
  { name := name, weight := w, qual := none, groups := [[.bare r]] }

/-! ## Theorems -/

/-! ### C1: progressive-overload bounds -/

/-- C1: the spec asserts that for `last_reps ∈ [1,12]`, `days_since ∈ [0,14]`
the suggested reps never exceed 12 and the suggested weight is never below
`last_weight`, relying on a forced minimum increment when rounding fails to
exceed it.  The `/api/progressive-overload` endpoint has no such forced
increment: at `last_weight = 28, last_reps = 10, days_since = 5`, the 2.5%
increase rounds down to the 2.5-grid point 27.5, which `int()` truncates to
27 — strictly below the last weight, contradicting both the claim and the
code's own comment ("Increase weight").  The guard does exist in the sibling
suggestions path (`copySuggestionsSuggest`). -/
theorem c1_progressive_overload_weight_drop :
    progressiveOverloadSuggest 28 10 5 = (27, 10) ∧
    (progressiveOverloadSuggest 28 10 5).1 < 28 ∧
    (copySuggestionsSuggest 28 10 5).1 = 30 := by
  refine ⟨?_, ?_, ?_⟩ <;>
    norm_num [progressiveOverloadSuggest, copySuggestionsSuggest, gridRound,
      pyRound, pyTrunc]

/-! ### C3: concrete overload scenarios -/

/-- C3 counterexample: the claim asserts that at
`last_weight = 40, last_reps = 10, days_since = 5` the suggested weight is
42.5.  Neither path produces 42.5: `progressive_overload` rounds
`41/2.5 = 16.4` down to 16, leaving the weight at 40, and the suggestions
path yields `int(42.5) = 42`. -/
theorem c3_counterexample :
    ((progressiveOverloadSuggest 40 10 5).1 : ℚ) ≠ 85 / 2 ∧
    ((copySuggestionsSuggest 40 10 5).1 : ℚ) ≠ 85 / 2 := by
  constructor <;>
    norm_num [progressiveOverloadSuggest, copySuggestionsSuggest, gridRound,
      pyRound, pyTrunc]

/-- C3 amended: at `(40, 8, 5)` the suggestion is `(40, 9)` (rep
progression, since 8 < 10) as claimed; at `(40, 10, 5)` the
`progressive_overload` endpoint leaves the weight at 40 with reps 10 (the
2.5-grid rounding of 41 gives back 40 and no minimum increment is forced),
while the copy-workout suggestions path suggests weight 42 (the forced
2.5 minimum increment to 42.5, truncated by `int()`) with reps reset to 5. -/
theorem c3_amended :
    progressiveOverloadSuggest 40 8 5 = (40, 9) ∧
    progressiveOverloadSuggest 40 10 5 = (40, 10) ∧
    copySuggestionsSuggest 40 10 5 = (42, 5) := by
  refine ⟨?_, ?_, ?_⟩ <;>
    norm_num [progressiveOverloadSuggest, copySuggestionsSuggest, gridRound,
      pyRound, pyTrunc]

/-! ### C4: PR and strength-increase flags are mutually exclusive -/

/-- C4: for any history and any single exercise, the per-exercise PR flag
and strength-increase flag are never both set: the weighted branch sets the
PR flag only when the weight strictly exceeds the best and the
strength-increase flag only in the `elif` where the weight equals the best;
the bodyweight branch never sets the strength flag. -/
theorem c4_pr_strength_exclusive (h : HistMap) (ex : ParsedEx) :
    ¬((exerciseFlagStep h ex).1 = true ∧ (exerciseFlagStep h ex).2 = true) := by
  unfold exerciseFlagStep
  rcases hv : h (exKey ex) with _ | hist <;> simp only [hv]
  · simp
  · split_ifs <;> simp

/-! ### C6: unparseable reference dates yield empty history, no flags -/

/-- C6: when the reference workout's date string parses under none of the
accepted formats (or every successful parse is discarded as implausibly
future-dated), the per-workout evaluation of `build_search_index` skips the
whole history block: the reconstructed history is empty and neither the PR
nor the strength-increase flag is set. -/
theorem c6_unparseable_date_empty (today : PyDateTime) (ws : List Workout)
    (w : Workout) (h : parseWorkoutDate today w.date = none) :
    evalWorkoutPR today ws w = (false, false, fun _ => none) := by
  unfold evalWorkoutPR
  rw [h]

/-- C6 witness at a concrete unparseable date. -/
theorem c6_witness :
    parseWorkoutDate ⟨2026, 10, 12, 0, 0⟩ (("not a date").toList) = none ∧
    evalWorkoutPR ⟨2026, 10, 12, 0, 0⟩
      [⟨("not a date").toList, ("bench press - 100 * 5").toList⟩]
      ⟨("not a date").toList, ("bench press - 100 * 5").toList⟩ =
      (false, false, fun _ => none) :=
  ⟨by decide, c6_unparseable_date_empty _ _ _ (by decide)⟩

/-! ### C9: incremental updates never touch the language-model categories -/

/-- C9: for every index state, position, workout facts and operation string,
`update_index_for_workout` leaves the `leg day` and `upper body` lists
exactly unchanged — it only rewrites the three rule-based lists and the
metadata. -/
theorem c9_ai_categories_untouched (mapping : ExMapping) (idx : SIndex)
    (pos : Nat) (hasPr : Bool) (text : List Char) (op : List Char)
    (curHash curUpd : List Char) :
    (updateIndexForWorkout mapping idx pos hasPr text op curHash
        curUpd).legDay = idx.legDay ∧
    (updateIndexForWorkout mapping idx pos hasPr text op curHash
        curUpd).upperBody = idx.upperBody := by
  unfold updateIndexForWorkout
  split_ifs <;> simp <;> split_ifs <;> simp

/-! ### C10: SKIP / run prefixes are rejected -/

/-- C10: any input line whose stripped text starts with `SKIP` or with
`run` is rejected by `parse_exercise_line` before any grammar is tried,
even when the rest of the line is a valid exercise. -/
theorem c10_skip_run_rejected (s : List Char)
    (h : startsWithL sSKIP (pyStripL s) = true ∨
         startsWithL sRun (pyStripL s) = true) :
    parseLineL s = none := by
  unfold parseLineL
  rcases h with h | h <;> simp [h]

/-- C10 witness: a line that begins with `run` (as part of
"running lunges") and otherwise matches the weighted grammar is dropped. -/
theorem c10_witness :
    startsWithL sRun (pyStripL (("running lunges - 50 * 10").toList)) = true ∧
    parseLineL (("running lunges - 50 * 10").toList) = none :=
  ⟨by decide, c10_skip_run_rejected _ (Or.inr (by decide))⟩

/-! ### C8: idempotence of the incremental `add` update -/

theorem removeOnce_of_not_mem {l : List Nat} {x : Nat} (h : x ∉ l) :
    removeOnce l x = l := by
  induction l with
  | nil => rfl
  | cons a r ih =>
    simp only [List.mem_cons, not_or] at h
    simp [removeOnce, Ne.symm h.1, ih h.2]

theorem count_removeOnce (l : List Nat) (x : Nat) :
    (removeOnce l x).count x = l.count x - 1 := by
  induction l with
  | nil => rfl
  | cons a r ih =>
    by_cases hax : a = x
    · subst hax; simp [removeOnce, List.count_cons]
    · simp [removeOnce, hax, List.count_cons, ih]

theorem not_mem_removeOnce_of_count_le_one {l : List Nat} {x : Nat}
    (h : l.count x ≤ 1) : x ∉ removeOnce l x := by
  have hc := count_removeOnce l x
  have : (removeOnce l x).count x = 0 := by omega
  exact (List.count_eq_zero.mp this)

theorem removeOnce_append_self {l : List Nat} {x : Nat} (h : x ∉ l) :
    removeOnce (l ++ [x]) x = l := by
  induction l with
  | nil => simp [removeOnce]
  | cons a r ih =>
    simp only [List.mem_cons, not_or] at h
    simp [removeOnce, Ne.symm h.1, ih h.2]

theorem contains_eq_mem (l : List Nat) (x : Nat) :
    l.contains x = true ↔ x ∈ l := by
  induction l with
  | nil => simp
  | cons a r ih => simp [List.contains]

/-- Double remove-then-skip (the non-qualifying branch) is idempotent under
the no-duplicate hypothesis and preserves it. -/
theorem updStep_false {L : List Nat} {x : Nat} (h : L.count x ≤ 1) :
    removeOnce (removeOnce L x) x = removeOnce L x ∧
    (removeOnce L x).count x ≤ 1 := by
  have hm := not_mem_removeOnce_of_count_le_one h
  refine ⟨removeOnce_of_not_mem hm, ?_⟩
  have := count_removeOnce L x
  omega

/-- Double remove-then-add (the qualifying branch) is idempotent under the
no-duplicate hypothesis and preserves it. -/
theorem updStep_true {L : List Nat} {x : Nat} (h : L.count x ≤ 1) :
    addUnlessMem (removeOnce (addUnlessMem (removeOnce L x) x) x) x =
      addUnlessMem (removeOnce L x) x ∧
    (addUnlessMem (removeOnce L x) x).count x ≤ 1 := by
  have hm := not_mem_removeOnce_of_count_le_one h
  have hc : (removeOnce L x).contains x = false := by
    rcases hb : (removeOnce L x).contains x with _ | _
    · rfl
    · exact absurd ((contains_eq_mem _ _).mp hb) hm
  have hadd : addUnlessMem (removeOnce L x) x = removeOnce L x ++ [x] := by
    unfold addUnlessMem
    rw [hc]
    simp
  constructor
  · rw [hadd, removeOnce_append_self hm, hadd]
  · rw [hadd]
    have hc0 : (removeOnce L x).count x = 0 := by
      have := count_removeOnce L x; omega
    simp [List.count_append, hc0]

/-- C8 counterexample: the claim quantifies over every existing index with
metadata; on an index whose `PR personal record` list contains the position
twice, one non-qualifying `add` leaves one occurrence (Python `remove` drops
only the first) while two calls drop both, so the membership after two calls
differs from the membership after one. -/
theorem c8_counterexample :
    (3 ∈ (updateIndexForWorkout [] ⟨[3, 3], [], [], [], [], true, [], []⟩ 3
        false [] (("add").toList) [] []).pr) ∧
    ¬(3 ∈ (updateIndexForWorkout []
        (updateIndexForWorkout [] ⟨[3, 3], [], [], [], [], true, [], []⟩ 3
          false [] (("add").toList) [] []) 3
        false [] (("add").toList) [] []).pr) := by
  decide

/-- C8 amended: on an index whose rule-based lists hold the position at most
once (every index the code itself builds is duplicate-free), calling the
incremental `add` twice with identical facts yields exactly the same three
rule-based lists as calling it once, and the position occurs at most once in
each — hence the same category membership with no duplicates. -/
theorem c8_add_idempotent (mapping : ExMapping) (idx : SIndex) (pos : Nat)
    (hasPr : Bool) (text : List Char) (curHash curUpd : List Char)
    (h1 : idx.pr.count pos ≤ 1) (h2 : idx.chest.count pos ≤ 1)
    (h3 : idx.fullBody.count pos ≤ 1) :
    (updateIndexForWorkout mapping
        (updateIndexForWorkout mapping idx pos hasPr text (("add").toList)
          curHash curUpd)
        pos hasPr text (("add").toList) curHash curUpd).pr =
      (updateIndexForWorkout mapping idx pos hasPr text (("add").toList)
        curHash curUpd).pr ∧
    (updateIndexForWorkout mapping
        (updateIndexForWorkout mapping idx pos hasPr text (("add").toList)
          curHash curUpd)
        pos hasPr text (("add").toList) curHash curUpd).chest =
      (updateIndexForWorkout mapping idx pos hasPr text (("add").toList)
        curHash curUpd).chest ∧
    (updateIndexForWorkout mapping
        (updateIndexForWorkout mapping idx pos hasPr text (("add").toList)
          curHash curUpd)
        pos hasPr text (("add").toList) curHash curUpd).fullBody =
      (updateIndexForWorkout mapping idx pos hasPr text (("add").toList)
        curHash curUpd).fullBody ∧
    (updateIndexForWorkout mapping idx pos hasPr text (("add").toList)
      curHash curUpd).pr.count pos ≤ 1 ∧
    (updateIndexForWorkout mapping idx pos hasPr text (("add").toList)
      curHash curUpd).chest.count pos ≤ 1 ∧
    (updateIndexForWorkout mapping idx pos hasPr text (("add").toList)
      curHash curUpd).fullBody.count pos ≤ 1 := by
  unfold updateIndexForWorkout
  by_cases hm : idx.hasMeta
  · simp only [hm, Bool.not_true, Bool.false_eq_true, if_false]
    by_cases he : (parseWorkoutTextL text).exercises.isEmpty <;>
      by_cases hp : hasPr <;> simp only [he, hp] <;> simp <;>
      (try split_ifs) <;> (repeat' apply And.intro) <;>
      first
      | exact (updStep_true h1).1
      | exact (updStep_false h1).1
      | exact (updStep_true h2).1
      | exact (updStep_false h2).1
      | exact (updStep_true h3).1
      | exact (updStep_false h3).1
      | exact (updStep_true h1).2
      | exact (updStep_false h1).2
      | exact (updStep_true h2).2
      | exact (updStep_false h2).2
      | exact (updStep_true h3).2
      | exact (updStep_false h3).2
  · simp [hm, h1, h2, h3]

/-- C8 witness for the amended statement. -/
theorem c8_witness :
    (([3, 7] : List Nat).count 3 ≤ 1) ∧
    (updateIndexForWorkout []
        (updateIndexForWorkout [] ⟨[3, 7], [], [], [], [], true, [], []⟩ 3
          true [] (("add").toList) [] [])
        3 true [] (("add").toList) [] []).pr =
      (updateIndexForWorkout [] ⟨[3, 7], [], [], [], [], true, [], []⟩ 3
        true [] (("add").toList) [] []).pr :=
  ⟨by decide,
   (c8_add_idempotent [] ⟨[3, 7], [], [], [], [], true, [], []⟩ 3 true []
     [] [] (by decide) (by decide) (by decide)).1⟩

/-! ### C7: recovery-status bucketing -/

theorem stepMin_none_arg (v : Int) : stepMin none v = some v := rfl

theorem stepMin_some_arg (d v : Int) :
    stepMin (some d) v = if v < d then some v else some d := rfl

theorem stepMin_ne_none (acc : Option Int) (v : Int) :
    stepMin acc v ≠ none := by
  rcases acc with _ | d
  · simp [stepMin_none_arg]
  · rw [stepMin_some_arg]
    split_ifs <;> simp

/-- The value of `stepMin` is `≤` its second argument. -/
theorem stepMin_le_arg (acc : Option Int) (v w : Int)
    (h : stepMin acc v = some w) : w ≤ v := by
  rcases acc with _ | d
  · rw [stepMin_none_arg] at h
    simp at h
    omega
  · rw [stepMin_some_arg] at h
    revert h
    split_ifs with hlt <;> intro h <;> simp at h <;> omega

/-- The value of `stepMin` is `≤` any accumulator value. -/
theorem stepMin_le_acc (d v w : Int)
    (h : stepMin (some d) v = some w) : w ≤ d := by
  rw [stepMin_some_arg] at h
  revert h
  split_ifs with hlt <;> intro h <;> simp at h <;> omega

/-- The value of `stepMin` comes from the argument or the accumulator. -/
theorem stepMin_cases (acc : Option Int) (v w : Int)
    (h : stepMin acc v = some w) : w = v ∨ acc = some w := by
  rcases acc with _ | d
  · rw [stepMin_none_arg] at h
    simp at h
    omega
  · rw [stepMin_some_arg] at h
    revert h
    split_ifs with hlt <;> intro h <;> simp at h
    · omega
    · right; rw [h]

theorem lastTrainedFold_eq_foldMin (obs : List (List Char × Int))
    (g : List Char) :
    ∀ m : List Char → Option Int,
      (obs.foldl
        (fun m p g2 =>
          if g2 = p.1 then
            match m p.1 with
            | none => some p.2
            | some d => if p.2 < d then some p.2 else some d
          else m g2)
        m) g = (daysList obs g).foldl stepMin (m g) := by
  induction obs with
  | nil => intro m; rfl
  | cons p obs ih =>
    intro m
    rw [List.foldl_cons, ih]
    by_cases hg : g = p.1
    · have hd : daysList (p :: obs) g = p.2 :: daysList obs g := by
        have hb : (p.1 == g) = true := by simp [hg]
        simp [daysList, hb]
      rw [hd, List.foldl_cons]
      congr 1
      rw [hg]
      rcases hmp : m p.1 with _ | d
      · simp [stepMin, hmp]
      · simp [stepMin, hmp]
    · have hd : daysList (p :: obs) g = daysList obs g := by
        have hb : (p.1 == g) = false := by
          simp only [beq_eq_false_iff_ne, ne_eq]
          exact fun h => hg h.symm
        simp [daysList, hb]
      rw [hd]
      congr 1
      simp [hg]

theorem foldMin_none (l : List Int) :
    ∀ acc, l.foldl stepMin acc = none ↔ acc = none ∧ l = [] := by
  induction l with
  | nil => intro acc; simp
  | cons u l ih =>
    intro acc
    rw [List.foldl_cons]
    constructor
    · intro h
      have h1 := ((ih (stepMin acc u)).mp h).1
      exact absurd h1 (stepMin_ne_none acc u)
    · rintro ⟨_, h⟩
      exact absurd h (by simp)

theorem foldMin_some (l : List Int) :
    ∀ acc v, l.foldl stepMin acc = some v →
      (v ∈ l ∨ acc = some v) ∧ (∀ u ∈ l, v ≤ u) ∧
      (∀ w, acc = some w → v ≤ w) := by
  induction l with
  | nil =>
    intro acc v h
    simp only [List.foldl_nil] at h
    refine ⟨Or.inr h, by simp, ?_⟩
    intro w hw
    rw [h] at hw
    simp at hw
    omega
  | cons u l ih =>
    intro acc v h
    rw [List.foldl_cons] at h
    obtain ⟨hmem, hall, hacc⟩ := ih (stepMin acc u) v h
    obtain ⟨w0, hw0⟩ : ∃ w0, stepMin acc u = some w0 := by
      rcases hs : stepMin acc u with _ | w0
      · exact absurd hs (stepMin_ne_none acc u)
      · exact ⟨w0, rfl⟩
    have hvw0 : v ≤ w0 := hacc w0 hw0
    have hw0u : w0 ≤ u := stepMin_le_arg acc u w0 hw0
    refine ⟨?_, ?_, ?_⟩
    · rcases hmem with hm | hm
      · exact Or.inl (List.mem_cons_of_mem _ hm)
      · rw [hm] at hw0
        simp only [Option.some.injEq] at hw0
        rcases stepMin_cases acc u v (by rw [hm]) with hc | hc
        · exact Or.inl (by simp [hc])
        · exact Or.inr hc
    · intro x hx
      rcases List.mem_cons.mp hx with hx | hx
      · omega
      · exact hall x hx
    · intro w hw
      subst hw
      have := stepMin_le_acc w u w0 hw0
      omega

theorem mem_tooSoonB (lt : List Char → Option Int) (g : List Char) (v : Int)
    (hg : g ∈ allGroups) :
    (g, v) ∈ tooSoonB lt ↔ lt g = some v ∧ v ≤ 1 := by
  unfold tooSoonB
  rw [List.mem_filterMap]
  constructor
  · rintro ⟨a, _, hfa⟩
    rcases ha : lt a with _ | d <;> rw [ha] at hfa <;> dsimp only at hfa
    · simp at hfa
    · revert hfa; split_ifs with hd <;> intro hfa <;> simp at hfa
      rcases hfa with ⟨rfl, rfl⟩
      exact ⟨ha, hd⟩
  · rintro ⟨hv, hd⟩
    exact ⟨g, hg, by rw [hv]; simp [hd]⟩

theorem mem_optimalB (lt : List Char → Option Int) (g : List Char) (v : Int)
    (hg : g ∈ allGroups) :
    (g, v) ∈ optimalB lt ↔ lt g = some v ∧ ¬(v ≤ 1) ∧ v ≤ 3 := by
  unfold optimalB
  rw [List.mem_filterMap]
  constructor
  · rintro ⟨a, _, hfa⟩
    rcases ha : lt a with _ | d <;> rw [ha] at hfa <;> dsimp only at hfa
    · simp at hfa
    · revert hfa; split_ifs with hd <;> intro hfa <;> simp at hfa
      rcases hfa with ⟨rfl, rfl⟩
      exact ⟨ha, hd⟩
  · rintro ⟨hv, hd⟩
    exact ⟨g, hg, by rw [hv]; simp [hd.1, hd.2]⟩

theorem mem_readyB (lt : List Char → Option Int) (g : List Char) (v : Int)
    (hg : g ∈ allGroups) :
    (g, v) ∈ readyB lt ↔ lt g = some v ∧ ¬(v ≤ 3) ∧ v ≤ 6 := by
  unfold readyB
  rw [List.mem_filterMap]
  constructor
  · rintro ⟨a, _, hfa⟩
    rcases ha : lt a with _ | d <;> rw [ha] at hfa <;> dsimp only at hfa
    · simp at hfa
    · revert hfa; split_ifs with hd <;> intro hfa <;> simp at hfa
      rcases hfa with ⟨rfl, rfl⟩
      exact ⟨ha, hd⟩
  · rintro ⟨hv, hd⟩
    exact ⟨g, hg, by rw [hv]; simp [hd.1, hd.2]⟩

theorem mem_neglectedB_some (lt : List Char → Option Int) (g : List Char)
    (v : Int) (hg : g ∈ allGroups) :
    (g, some v) ∈ neglectedB lt ↔ lt g = some v ∧ ¬(v ≤ 6) := by
  unfold neglectedB
  rw [List.mem_filterMap]
  constructor
  · rintro ⟨a, _, hfa⟩
    rcases ha : lt a with _ | d <;> rw [ha] at hfa <;> dsimp only at hfa
    · simp at hfa
    · revert hfa; split_ifs with hd <;> intro hfa <;> simp at hfa
      rcases hfa with ⟨rfl, rfl⟩
      exact ⟨ha, hd⟩
  · rintro ⟨hv, hd⟩
    exact ⟨g, hg, by rw [hv]; simp [hd]⟩

theorem mem_neglectedB_none (lt : List Char → Option Int) (g : List Char)
    (hg : g ∈ allGroups) :
    (g, (none : Option Int)) ∈ neglectedB lt ↔ lt g = none := by
  unfold neglectedB
  rw [List.mem_filterMap]
  constructor
  · rintro ⟨a, _, hfa⟩
    rcases ha : lt a with _ | d <;> rw [ha] at hfa <;> dsimp only at hfa
    · simp at hfa
      rw [hfa] at ha
      exact ha
    · revert hfa; split_ifs with hd <;> intro hfa <;> simp at hfa
  · intro hv
    exact ⟨g, hg, by rw [hv]⟩

/-- C7: the recovery check buckets every group of the fixed canonical list
by its smallest days-ago: with minimum `v ≥ 0`, the group lands in
`too_soon` iff `v ∈ [0,1]`, in `optimal` iff `v ∈ [2,3]`, in `ready` iff
`v ∈ [4,6]`, in `neglected` iff `v ≥ 7`; a group never seen in the window
lands in `neglected`; and the final neglected list drops the generic `arms`
entry exactly when `biceps` or `triceps` also occurs in the (pre-filter)
neglected list. -/
theorem c7_recovery_buckets (obs : List (List Char × Int)) (g : List Char)
    (hg : g ∈ allGroups) :
    (∀ v, lastTrainedFold obs g = some v →
        v ∈ daysList obs g ∧ ∀ u ∈ daysList obs g, v ≤ u) ∧
    (lastTrainedFold obs g = none ↔ daysList obs g = []) ∧
    (∀ v, lastTrainedFold obs g = some v → 0 ≤ v →
        (((g, v) ∈ tooSoonB (lastTrainedFold obs)) ↔ v ≤ 1) ∧
        (((g, v) ∈ optimalB (lastTrainedFold obs)) ↔ 2 ≤ v ∧ v ≤ 3) ∧
        (((g, v) ∈ readyB (lastTrainedFold obs)) ↔ 4 ≤ v ∧ v ≤ 6) ∧
        (((g, some v) ∈ neglectedB (lastTrainedFold obs)) ↔ 7 ≤ v)) ∧
    (lastTrainedFold obs g = none →
        (g, (none : Option Int)) ∈ neglectedB (lastTrainedFold obs)) ∧
    (∀ p, p ∈ filteredNeglected (lastTrainedFold obs) ↔
        p ∈ neglectedB (lastTrainedFold obs) ∧
        ¬(p.1 = ("arms").toList ∧
          ((∃ q ∈ neglectedB (lastTrainedFold obs),
              q.1 = ("biceps").toList) ∨
           (∃ q ∈ neglectedB (lastTrainedFold obs),
              q.1 = ("triceps").toList)))) := by
  have hfold : ∀ g2, lastTrainedFold obs g2 =
      (daysList obs g2).foldl stepMin none := by
    intro g2
    exact lastTrainedFold_eq_foldMin obs g2 (fun _ => none)
  refine ⟨?_, ?_, ?_, ?_, ?_⟩
  · intro v hv
    rw [hfold] at hv
    obtain ⟨hmem, hall, _⟩ := foldMin_some _ _ _ hv
    refine ⟨?_, hall⟩
    rcases hmem with hm | hm
    · exact hm
    · simp at hm
  · rw [hfold]
    rw [foldMin_none]
    simp
  · intro v hv hv0
    refine ⟨?_, ?_, ?_, ?_⟩
    · rw [mem_tooSoonB _ _ _ hg]
      constructor
      · exact fun h => h.2
      · exact fun h => ⟨hv, h⟩
    · rw [mem_optimalB _ _ _ hg]
      constructor
      · intro h; omega
      · intro h; exact ⟨hv, by omega, by omega⟩
    · rw [mem_readyB _ _ _ hg]
      constructor
      · intro h; omega
      · intro h; exact ⟨hv, by omega, by omega⟩
    · rw [mem_neglectedB_some _ _ _ hg]
      constructor
      · intro h; omega
      · intro h; exact ⟨hv, by omega⟩
  · intro hv
    exact (mem_neglectedB_none _ _ hg).mpr hv
  · intro p
    unfold filteredNeglected
    rw [List.mem_filter]
    constructor
    · rintro ⟨hp, hb⟩
      refine ⟨hp, ?_⟩
      simp only [Bool.not_eq_true', Bool.and_eq_false_iff] at hb
      rintro ⟨harm, hbt⟩
      rcases hb with hb | hb
      · rw [harm] at hb; simp at hb
      · simp only [Bool.or_eq_false_iff] at hb
        rcases hbt with ⟨q, hq, hq1⟩ | ⟨q, hq, hq1⟩
        · have := List.any_eq_false.mp hb.1 q hq
          rw [hq1] at this; simp at this
        · have := List.any_eq_false.mp hb.2 q hq
          rw [hq1] at this; simp at this
    · rintro ⟨hp, hb⟩
      refine ⟨hp, ?_⟩
      simp only [Bool.not_eq_true']
      by_cases harm : p.1 = ("arms").toList
      · have hnb : (neglectedB (lastTrainedFold obs)).any
            (fun q => q.1 == ("biceps").toList) = false := by
          rw [List.any_eq_false]
          intro q hq
          intro hq1
          rw [beq_iff_eq] at hq1
          exact hb ⟨harm, Or.inl ⟨q, hq, hq1⟩⟩
        have hnt : (neglectedB (lastTrainedFold obs)).any
            (fun q => q.1 == ("triceps").toList) = false := by
          rw [List.any_eq_false]
          intro q hq
          intro hq1
          rw [beq_iff_eq] at hq1
          exact hb ⟨harm, Or.inr ⟨q, hq, hq1⟩⟩
        rw [hnb, hnt]
        simp
      · have harm2 : (p.1 == ("arms").toList) = false :=
          beq_eq_false_iff_ne.mpr harm
        rw [harm2]
        simp

/-- C7 witness: 3 days ago → optimal; 0 → too-soon; 10 → neglected; a group
never seen (shoulders) → neglected. -/
theorem c7_witness :
    ((("chest").toList, (3 : Int)) ∈ optimalB (lastTrainedFold
      [ ((("chest").toList), (3 : Int)), ((("legs").toList), 0),
        ((("back").toList), 10) ])) ∧
    ((("legs").toList, (0 : Int)) ∈ tooSoonB (lastTrainedFold
      [ ((("chest").toList), (3 : Int)), ((("legs").toList), 0),
        ((("back").toList), 10) ])) ∧
    ((("back").toList, some (10 : Int)) ∈ neglectedB (lastTrainedFold
      [ ((("chest").toList), (3 : Int)), ((("legs").toList), 0),
        ((("back").toList), 10) ])) ∧
    ((("shoulders").toList, (none : Option Int)) ∈ neglectedB (lastTrainedFold
      [ ((("chest").toList), (3 : Int)), ((("legs").toList), 0),
        ((("back").toList), 10) ])) :=
  ⟨(((c7_recovery_buckets _ _ (by decide)).2.2.1 3 (by decide)
      (by decide)).2.1).mpr (by decide),
   (((c7_recovery_buckets _ _ (by decide)).2.2.1 0 (by decide)
      (by decide)).1).mpr (by decide),
   (((c7_recovery_buckets _ _ (by decide)).2.2.1 10 (by decide)
      (by decide)).2.2.2).mpr (by decide),
   ((c7_recovery_buckets _ _ (by decide)).2.2.2.1 (by decide))⟩

/-! ### C2: the reconstructed history -/

theorem maxNat_append_one (l : List Nat) (x : Nat) :
    maxNat (l ++ [x]) = max (maxNat l) x := by
  simp [maxNat, List.foldl_append]

theorem foldl_max_ge_init (l : List Nat) : ∀ a, a ≤ l.foldl max a := by
  induction l with
  | nil => intro a; simp
  | cons u l ih =>
    intro a
    rw [List.foldl_cons]
    exact le_trans (le_max_left a u) (ih (max a u))

theorem le_foldl_max_of_mem {l : List Nat} {x : Nat} (hx : x ∈ l) :
    ∀ a, x ≤ l.foldl max a := by
  induction l with
  | nil => exact absurd hx (by simp)
  | cons u l ih =>
    intro a
    rw [List.foldl_cons]
    rcases List.mem_cons.mp hx with h | h
    · subst h
      exact le_trans (le_max_right a x) (foldl_max_ge_init l (max a x))
    · exact ih h (max a u)

theorem le_maxNat_of_mem {l : List Nat} {x : Nat} (hx : x ∈ l) :
    x ≤ maxNat l := le_foldl_max_of_mem hx 0

theorem find?_append_first {α} (p : α → Bool) {l : List α} {e : α}
    (l2 : List α) (h : l.find? p = some e) :
    (l ++ l2).find? p = some e := by
  induction l with
  | nil => simp at h
  | cons a l ih =>
    rcases hpa : p a with _ | _
    · rw [List.find?_cons_of_neg _ (by simp [hpa])] at h
      rw [List.cons_append, List.find?_cons_of_neg _ (by simp [hpa])]
      exact ih h
    · rw [List.find?_cons_of_pos _ hpa] at h
      rw [List.cons_append, List.find?_cons_of_pos _ hpa]
      exact h

theorem find?_append_second {α} (p : α → Bool) {l : List α}
    (l2 : List α) (h : l.find? p = none) :
    (l ++ l2).find? p = l2.find? p := by
  induction l with
  | nil => simp
  | cons a l ih =>
    rcases hpa : p a with _ | _
    · rw [List.find?_cons_of_neg _ (by simp [hpa])] at h
      rw [List.cons_append, List.find?_cons_of_neg _ (by simp [hpa])]
      exact ih h
    · rw [List.find?_cons_of_pos _ hpa] at h
      simp at h

/-- The complete characterisation of the history fold of
`build_search_index`: for every key, `best_weight` is the maximum of the
per-record `max_weight`s, `best_reps` is the maximum of the per-record
**first-set** reps, and `best_weight_reps` is the first-set reps of the
*first* record attaining the best weight (0 when the best weight is 0). -/
theorem histFold_spec (recs : List ParsedEx) (k : List Char) :
    (histFold recs k = none → matchingRecords recs k = []) ∧
    (∀ r, histFold recs k = some r →
      matchingRecords recs k ≠ [] ∧
      r.best_weight = maxNat ((matchingRecords recs k).map ParsedEx.max_weight) ∧
      r.best_reps = maxNat ((matchingRecords recs k).map ParsedEx.first_reps) ∧
      (r.best_weight = 0 → r.best_weight_reps = 0) ∧
      (0 < r.best_weight →
        ∃ e, firstAttainer (matchingRecords recs k) r.best_weight = some e ∧
          r.best_weight_reps = e.first_reps)) := by
  induction recs using List.reverseRecOn with
  | nil => exact ⟨fun _ => rfl, fun r hr => by simp [histFold] at hr⟩
  | append_singleton l e ih =>
    have hfold : histFold (l ++ [e]) = histStep (histFold l) e := by
      unfold histFold
      rw [List.foldl_append, List.foldl_cons, List.foldl_nil]
    by_cases hke : exKey e = k
    · have hmr : matchingRecords (l ++ [e]) k = matchingRecords l k ++ [e] := by
        unfold matchingRecords
        rw [List.filter_append]
        simp [hke]
      rcases hlk : histFold l k with _ | r0
      · -- first matching record for this key
        have hml : matchingRecords l k = [] := ih.1 hlk
        have hv : histFold (l ++ [e]) k =
            some ⟨e.max_weight, e.first_reps,
              if 0 < e.max_weight then e.first_reps else 0⟩ := by
          rw [hfold]
          unfold histStep
          rw [hke, hlk]
          simp
        refine ⟨fun hnone => by rw [hv] at hnone; simp at hnone, ?_⟩
        intro r hr
        rw [hv] at hr
        simp only [Option.some.injEq] at hr
        subst hr
        rw [hmr, hml]
        refine ⟨by simp, by simp [maxNat], by simp [maxNat], ?_, ?_⟩
        · intro h0
          dsimp only at h0 ⊢
          simp [h0]
        · intro hpos
          dsimp only at hpos ⊢
          refine ⟨e, ?_, ?_⟩
          · unfold firstAttainer
            simp
          · simp [hpos]
      · -- the key was already present
        obtain ⟨hne0, hbw0, hbr0, hz0, hp0⟩ := ih.2 r0 hlk
        have hv : histFold (l ++ [e]) k =
            some (
              let r1 := if r0.best_weight < e.max_weight then
                { r0 with best_weight := e.max_weight,
                          best_weight_reps := e.first_reps } else r0
              if r1.best_reps < e.first_reps then
                { r1 with best_reps := e.first_reps } else r1) := by
          rw [hfold]
          unfold histStep
          rw [hke, hlk]
          simp
        refine ⟨fun hnone => by rw [hv] at hnone; simp at hnone, ?_⟩
        intro r hr
        rw [hv] at hr
        simp only [Option.some.injEq] at hr
        rw [hmr]
        have hmax : maxNat ((matchingRecords l k ++ [e]).map
            ParsedEx.max_weight) = max r0.best_weight e.max_weight := by
          rw [List.map_append, List.map_cons, List.map_nil,
            maxNat_append_one, hbw0]
        have hmaxr : maxNat ((matchingRecords l k ++ [e]).map
            ParsedEx.first_reps) = max r0.best_reps e.first_reps := by
          rw [List.map_append, List.map_cons, List.map_nil,
            maxNat_append_one, hbr0]
        have hbw : r.best_weight =
            if r0.best_weight < e.max_weight then e.max_weight
            else r0.best_weight := by
          rw [← hr]
          by_cases hlt : r0.best_weight < e.max_weight <;>
            simp [hlt] <;> split_ifs <;> rfl
        have hbwr : r.best_weight_reps =
            if r0.best_weight < e.max_weight then e.first_reps
            else r0.best_weight_reps := by
          rw [← hr]
          by_cases hlt : r0.best_weight < e.max_weight <;>
            simp [hlt] <;> split_ifs <;> rfl
        have hbr : r.best_reps = max r0.best_reps e.first_reps := by
          rw [← hr]
          by_cases hlt : r0.best_weight < e.max_weight <;>
            by_cases hlt2 : r0.best_reps < e.first_reps <;>
            simp [hlt, hlt2] <;> omega
        refine ⟨by simp, ?_, ?_, ?_, ?_⟩
        · -- best weight
          rw [hmax, hbw]
          split_ifs <;> omega
        · -- best reps
          rw [hmaxr, hbr]
        · -- zero best weight
          intro h0
          rw [hbw] at h0
          rw [hbwr]
          split_ifs at h0 ⊢ <;> first | omega | (exact hz0 h0)
        · -- best-weight reps: first attainer
          intro hpos
          rw [hbw] at hpos
          by_cases hlt : r0.best_weight < e.max_weight
          · -- e sets a strictly new best: earlier records cannot attain it
            have hnone : (matchingRecords l k).find?
                (fun x => x.max_weight == e.max_weight) = none := by
              rw [List.find?_eq_none]
              intro x hx
              have hle : x.max_weight ≤ r0.best_weight := by
                rw [hbw0]
                exact le_maxNat_of_mem (List.mem_map_of_mem _ hx)
              simp only [beq_iff_eq]
              omega
            refine ⟨e, ?_, ?_⟩
            · rw [hbw]
              simp only [hlt, if_true]
              unfold firstAttainer
              rw [find?_append_second _ _ hnone]
              simp
            · rw [hbwr]
              simp [hlt]
          · -- the old best stands
            rw [if_neg hlt] at hpos
            obtain ⟨e0, he0, hbwr0⟩ := hp0 hpos
            refine ⟨e0, ?_, ?_⟩
            · rw [hbw]
              simp only [hlt, if_false]
              unfold firstAttainer at he0 ⊢
              exact find?_append_first _ _ he0
            · rw [hbwr]
              simp [hlt, hbwr0]
    · -- a record for a different key: nothing changes
      have hmr : matchingRecords (l ++ [e]) k = matchingRecords l k := by
        unfold matchingRecords
        rw [List.filter_append]
        have : (exKey e == k) = false := beq_eq_false_iff_ne.mpr hke
        simp [this]
      have hv : histFold (l ++ [e]) k = histFold l k := by
        rw [hfold]
        unfold histStep
        rcases histFold l (exKey e) with _ | r0 <;> simp [Ne.symm hke]
      rw [hv, hmr]
      exact ih

/-- C2 counterexample: the history records the *first-set* reps, not the
reps seen or the reps at the best weight.  With one strictly earlier workout
`"bench press - 100 * 5, 120 * 3, 8"` (sets 100×5, 120×3, 120×8), the
reconstructed record is `{best_weight := 120, best_reps := 5,
best_weight_reps := 5}`; but the maximum reps seen is 8 (≠ best_reps = 5)
and the rep counts observed at the best weight 120 are 3 and 8, neither of
which is best_weight_reps = 5 — so both the best_reps and the
best_weight_reps sentences of the claim are false on this input. -/
theorem c2_counterexample :
    buildHistoryBefore ⟨2026, 10, 12, 0, 0⟩
      [⟨("01/08/24").toList, ("bench press - 100 * 7").toList⟩,
       ⟨("01/01/24").toList, ("bench press - 100 * 5, 120 * 3, 8").toList⟩]
      ⟨2024, 1, 8, 0, 0⟩ (("bench press").toList) =
      some ⟨120, 5, 5⟩ ∧
    maxRepsSeen (matchingRecords
      (eligibleRecords ⟨2026, 10, 12, 0, 0⟩
        [⟨("01/08/24").toList, ("bench press - 100 * 7").toList⟩,
         ⟨("01/01/24").toList, ("bench press - 100 * 5, 120 * 3, 8").toList⟩]
        ⟨2024, 1, 8, 0, 0⟩) (("bench press").toList)) = 8 ∧
    repsObservedAtWeight (matchingRecords
      (eligibleRecords ⟨2026, 10, 12, 0, 0⟩
        [⟨("01/08/24").toList, ("bench press - 100 * 7").toList⟩,
         ⟨("01/01/24").toList, ("bench press - 100 * 5, 120 * 3, 8").toList⟩]
        ⟨2024, 1, 8, 0, 0⟩) (("bench press").toList)) 120 = [3, 8] ∧
    (5 : Nat) ≠ 8 ∧ ¬((5 : Nat) ∈ [3, 8]) := by
  refine ⟨by decide, by decide, by decide, by decide, by decide⟩

/-- C2 amended: in the reconstructed history, for every exercise key with a
record, `best_weight` is the maximum weight seen in the eligible (strictly
earlier, date-parseable) records; `best_reps` is the maximum of the
**first-set** reps of those records (not of all reps seen); and
`best_weight_reps` is the **first-set** rep count of the first record whose
max weight attains `best_weight` (not the reps performed at that weight),
with the convention `best_weight_reps = 0` when `best_weight = 0`. -/
theorem c2_history_fields (today : PyDateTime) (ws : List Workout)
    (refDate : PyDateTime) (k : List Char) (r : HistRec)
    (h : buildHistoryBefore today ws refDate k = some r) :
    matchingRecords (eligibleRecords today ws refDate) k ≠ [] ∧
    r.best_weight = maxNat ((matchingRecords (eligibleRecords today ws
      refDate) k).map ParsedEx.max_weight) ∧
    r.best_reps = maxNat ((matchingRecords (eligibleRecords today ws
      refDate) k).map ParsedEx.first_reps) ∧
    (r.best_weight = 0 → r.best_weight_reps = 0) ∧
    (0 < r.best_weight →
      ∃ e, firstAttainer (matchingRecords (eligibleRecords today ws refDate)
          k) r.best_weight = some e ∧
        r.best_weight_reps = e.first_reps) :=
  (histFold_spec (eligibleRecords today ws refDate) k).2 r h

/-- C2 witness for the amended statement at the counterexample input. -/
theorem c2_witness :
    buildHistoryBefore ⟨2026, 10, 12, 0, 0⟩
      [⟨("01/08/24").toList, ("bench press - 100 * 7").toList⟩,
       ⟨("01/01/24").toList, ("bench press - 100 * 5, 120 * 3, 8").toList⟩]
      ⟨2024, 1, 8, 0, 0⟩ (("bench press").toList) =
      some ⟨120, 5, 5⟩ ∧
    (HistRec.mk 120 5 5).best_weight = maxNat ((matchingRecords
      (eligibleRecords ⟨2026, 10, 12, 0, 0⟩
        [⟨("01/08/24").toList, ("bench press - 100 * 7").toList⟩,
         ⟨("01/01/24").toList, ("bench press - 100 * 5, 120 * 3, 8").toList⟩]
        ⟨2024, 1, 8, 0, 0⟩) (("bench press").toList)).map
        ParsedEx.max_weight) :=
  ⟨by decide,
   (c2_history_fields ⟨2026, 10, 12, 0, 0⟩
     [⟨("01/08/24").toList, ("bench press - 100 * 7").toList⟩,
      ⟨("01/01/24").toList, ("bench press - 100 * 5, 120 * 3, 8").toList⟩]
     ⟨2024, 1, 8, 0, 0⟩ (("bench press").toList) ⟨120, 5, 5⟩
     (by decide)).2.1⟩

/-! ### C5: round-trip of the weight-times-reps grammar -/

theorem natStr_mem_digit {n : Nat} {c : Char} (hc : c ∈ natStr n) :
    ∃ d, d < 10 ∧ c = Char.ofNat (48 + d) := by
  induction n using Nat.strong_induction_on with
  | _ n ih =>
    rw [natStr] at hc
    split_ifs at hc with h
    · simp at hc
      exact ⟨n, h, hc⟩
    · rw [List.mem_append] at hc
      rcases hc with hc | hc
      · exact ih (n / 10) (Nat.div_lt_self (by omega) (by omega)) hc
      · simp at hc
        exact ⟨n % 10, Nat.mod_lt _ (by omega), hc⟩

theorem natStr_char_facts {n : Nat} {c : Char} (hc : c ∈ natStr n) :
    c.isDigit = true ∧ isSpaceC c = false ∧ c ≠ '*' ∧ c ≠ ',' ∧ c ≠ ';' ∧
      c ≠ '(' ∧ c ≠ ')' ∧ c ≠ '-' ∧ bwNameChar c = false := by
  obtain ⟨d, hd, rfl⟩ := natStr_mem_digit hc
  interval_cases d <;>
    exact ⟨by decide, by decide, by decide, by decide, by decide, by decide,
      by decide, by decide, by decide⟩

theorem natStr_ne_nil (n : Nat) : natStr n ≠ [] := by
  rw [natStr]
  split_ifs <;> simp

theorem natOfDigits_append_one (a : List Char) (c : Char) :
    natOfDigits (a ++ [c]) = 10 * natOfDigits a + (c.toNat - 48) := by
  simp [natOfDigits, List.foldl_append]

theorem toNat_ofNat_digit {d : Nat} (h : d < 10) :
    (Char.ofNat (48 + d)).toNat = 48 + d := by
  interval_cases d <;> decide

theorem natOfDigits_natStr (n : Nat) : natOfDigits (natStr n) = n := by
  induction n using Nat.strong_induction_on with
  | _ n ih =>
    rw [natStr]
    split_ifs with h
    · interval_cases n <;> decide
    · rw [natOfDigits_append_one,
        ih (n / 10) (Nat.div_lt_self (by omega) (by omega)),
        toNat_ofNat_digit (Nat.mod_lt _ (by omega))]
      omega

theorem pyIsdigit_natStr (n : Nat) : pyIsdigit (natStr n) = true := by
  unfold pyIsdigit
  rw [Bool.and_eq_true]
  constructor
  · simp [natStr_ne_nil n]
  · rw [List.all_eq_true]
    intro c hc
    exact (natStr_char_facts hc).1

theorem natStr_concat (n : Nat) :
    ∃ a c, natStr n = a ++ [c] ∧ c ∈ natStr n := by
  rcases List.eq_nil_or_concat' (natStr n) with h | ⟨a, c, hac⟩
  · exact absurd h (natStr_ne_nil n)
  · exact ⟨a, c, hac, by rw [hac]; simp⟩

theorem natStr_head (n : Nat) :
    ∃ c r, natStr n = c :: r ∧ c ∈ natStr n := by
  rcases hns : natStr n with _ | ⟨c, r⟩
  · exact absurd hns (natStr_ne_nil n)
  · exact ⟨c, r, rfl, by simp⟩

theorem containsC_eq_mem (c : Char) (l : List Char) :
    containsC c l = true ↔ c ∈ l := by
  unfold containsC
  rw [List.any_eq_true]
  constructor
  · rintro ⟨d, hd, hdc⟩
    rw [beq_iff_eq] at hdc
    rw [← hdc]
    exact hd
  · intro h
    exact ⟨c, h, by simp⟩

theorem containsC_eq_false (c : Char) (l : List Char) :
    containsC c l = false ↔ ¬(c ∈ l) := by
  constructor
  · intro h hc
    rw [← containsC_eq_mem] at hc
    rw [h] at hc
    exact absurd hc (by simp)
  · intro h
    rcases hb : containsC c l with _ | _
    · rfl
    · exact absurd ((containsC_eq_mem c l).mp hb) h

theorem natStr_no_star (n : Nat) : containsC '*' (natStr n) = false :=
  (containsC_eq_false _ _).mpr (fun h => (natStr_char_facts h).2.2.1 rfl)

theorem takeWhile_append_all {p : Char → Bool} {a : List Char}
    (ha : ∀ c ∈ a, p c = true) (b : List Char) :
    (a ++ b).takeWhile p = a ++ b.takeWhile p := by
  induction a with
  | nil => simp
  | cons c a ih =>
    rw [List.cons_append, List.takeWhile_cons, ha c (by simp),
      ih (fun d hd => ha d (by simp [hd]))]
    rfl

theorem dropWhile_append_all {p : Char → Bool} {a : List Char}
    (ha : ∀ c ∈ a, p c = true) (b : List Char) :
    (a ++ b).dropWhile p = b.dropWhile p := by
  induction a with
  | nil => simp
  | cons c a ih =>
    rw [List.cons_append, List.dropWhile_cons, ha c (by simp),
      ih (fun d hd => ha d (by simp [hd]))]
    simp

theorem takeWhile_all {p : Char → Bool} {a : List Char}
    (ha : ∀ c ∈ a, p c = true) : a.takeWhile p = a := by
  have := takeWhile_append_all ha []
  simpa using this

theorem takeWhile_append_stop {p : Char → Bool} {a : List Char} {c : Char}
    (ha : ∀ d ∈ a, p d = true) (hc : p c = false) (b : List Char) :
    (a ++ c :: b).takeWhile p = a := by
  rw [takeWhile_append_all ha, List.takeWhile_cons, hc]
  simp

theorem dropWhile_append_stop {p : Char → Bool} {a : List Char} {c : Char}
    (ha : ∀ d ∈ a, p d = true) (hc : p c = false) (b : List Char) :
    (a ++ c :: b).dropWhile p = c :: b := by
  rw [dropWhile_append_all ha, List.dropWhile_cons, hc]
  simp

theorem lstrip_cons_nospace {c : Char} {r : List Char}
    (h : isSpaceC c = false) : lstripL (c :: r) = c :: r := by
  simp [lstripL, List.dropWhile_cons, h]

theorem lstrip_cons_space {c : Char} {r : List Char}
    (h : isSpaceC c = true) : lstripL (c :: r) = lstripL r := by
  simp [lstripL, List.dropWhile_cons, h]

theorem rstrip_concat_nospace {xs : List Char} {d : Char}
    (h : isSpaceC d = false) : rstripL (xs ++ [d]) = xs ++ [d] := by
  unfold rstripL
  rw [List.reverse_append]
  simp only [List.reverse_cons, List.reverse_nil, List.nil_append,
    List.cons_append, List.dropWhile_cons, h]
  simp

theorem pyStrip_id_of_ends {cs : List Char}
    (h1 : ∃ c r, cs = c :: r ∧ isSpaceC c = false)
    (h2 : ∃ a d, cs = a ++ [d] ∧ isSpaceC d = false) :
    pyStripL cs = cs := by
  obtain ⟨c, r, rfl, hc⟩ := h1
  obtain ⟨a, d, he, hd⟩ := h2
  unfold pyStripL
  rw [lstrip_cons_nospace hc, he]
  exact rstrip_concat_nospace hd

theorem pyStrip_cons_space {c : Char} {r : List Char}
    (h : isSpaceC c = true) : pyStripL (c :: r) = pyStripL r := by
  unfold pyStripL
  rw [lstrip_cons_space h]

theorem mem_joinSep {sep : List Char} {l : List (List Char)} {c : Char}
    (hc : c ∈ joinSep sep l) : c ∈ sep ∨ ∃ x ∈ l, c ∈ x := by
  induction l with
  | nil => simp [joinSep] at hc
  | cons x l ih =>
    rcases l with _ | ⟨y, r⟩
    · exact Or.inr ⟨x, by simp, by simpa [joinSep] using hc⟩
    · unfold joinSep at hc
      rw [List.mem_append, List.mem_append] at hc
      rcases hc with (hc | hc) | hc
      · exact Or.inr ⟨x, by simp, hc⟩
      · exact Or.inl hc
      · rcases ih hc with h | ⟨z, hz, hcz⟩
        · exact Or.inl h
        · exact Or.inr ⟨z, by simp [List.mem_cons.mp hz], hcz⟩

theorem joinSep_ends {sep : List Char} {P : Char → Prop}
    {l : List (List Char)} (hne : l ≠ [])
    (h : ∀ x ∈ l, ∃ a d, x = a ++ [d] ∧ P d) :
    ∃ a d, joinSep sep l = a ++ [d] ∧ P d := by
  induction l with
  | nil => exact absurd rfl hne
  | cons x l ih =>
    rcases l with _ | ⟨y, r⟩
    · obtain ⟨a, d, hx, hp⟩ := h x (by simp)
      exact ⟨a, d, by simpa [joinSep] using hx, hp⟩
    · obtain ⟨a, d, hx, hp⟩ := ih (by simp)
        (fun z hz => h z (by simp [List.mem_cons.mp hz]))
      refine ⟨x ++ sep ++ a, d, ?_, hp⟩
      unfold joinSep
      rw [hx]
      simp

theorem startsWithL_self_append (p b : List Char) :
    startsWithL p (p ++ b) = true := by
  induction p with
  | nil => rfl
  | cons c p ih => simp [startsWithL, ih]

theorem splitFirstOn_single {c : Char} {a : List Char} (b : List Char)
    (h : containsC c a = false) :
    splitFirstOn [c] (a ++ c :: b) = some (a, b) := by
  induction a with
  | nil =>
    show splitFirstOn [c] (c :: b) = some ([], b)
    unfold splitFirstOn
    rw [show startsWithL [c] (c :: b) = true by simp [startsWithL]]
    simp
  | cons d a ih =>
    have hdc : (d == c) = false := by
      rcases hb : (d == c) with _ | _
      · rfl
      · rw [beq_iff_eq] at hb
        rw [containsC_eq_false] at h
        exact absurd (by simp [hb]) h
    have hcd : (c == d) = false := by
      rw [beq_eq_false_iff_ne] at hdc ⊢
      exact fun hh => hdc hh.symm
    rw [List.cons_append]
    unfold splitFirstOn
    rw [show startsWithL [c] (d :: (a ++ c :: b)) = false by
      simp [startsWithL, hcd]]
    simp only [if_false, Bool.false_eq_true]
    rw [ih (by
      rw [containsC_eq_false] at h ⊢
      exact fun hm => h (by simp [hm]))]
    rfl

theorem hasSub_of_prefix_at {pat pre suf : List Char}
    (h : startsWithL pat suf = true) :
    hasSubL pat (pre ++ suf) = true := by
  induction pre with
  | nil =>
    rcases suf with _ | ⟨c, r⟩
    · simpa [hasSubL]
    · simp [hasSubL, h]
  | cons d pre ih =>
    rw [List.cons_append]
    unfold hasSubL
    rw [ih]
    simp

theorem endsWith_concat2 (xs : List Char) (x y : Char) :
    endsWithL [x, y] (xs ++ [x, y]) = true := by
  unfold endsWithL
  rw [show xs ++ [x, y] = (xs ++ [x]) ++ [y] by simp, List.reverse_append]
  simp [startsWithL]

/-- No occurrence of `' - '` can start inside `name ++ ' - ' ++ b` before
the separator, given that `name` is `' - '`-free and does not end in
`' -'`. -/
theorem aux_no_sep_prefix {name b : List Char}
    (hsub : hasSubL sDash name = false)
    (hend : endsWithL [' ', '-'] name = false) :
    ∀ pre suf, name = pre ++ suf → suf ≠ [] →
      startsWithL sDash (suf ++ sDash ++ b) = false := by
  intro pre suf he hne
  rcases suf with _ | ⟨c, suf2⟩
  · exact absurd rfl hne
  rcases suf2 with _ | ⟨d, suf3⟩
  · show startsWithL sDash ([c] ++ sDash ++ b) = false
    simp [sDash, startsWithL]
  rcases suf3 with _ | ⟨e, rest⟩
  · -- suf = [c, d]: a match forces name to end in " -"
    rcases hsw : startsWithL sDash ([c, d] ++ sDash ++ b) with _ | _
    · rfl
    · exfalso
      have hcd : c = ' ' ∧ d = '-' := by
        revert hsw
        simp [sDash, startsWithL]
        intro h1 h2
        exact ⟨h1.symm, h2.symm⟩
      rcases hcd with ⟨rfl, rfl⟩
      rw [he] at hend
      rw [endsWith_concat2 pre ' ' '-'] at hend
      exact absurd hend (by simp)
  · -- suf at least 3 long: a match is an occurrence inside name
    rcases hsw : startsWithL sDash ((c :: d :: e :: rest) ++ sDash ++ b)
      with _ | _
    · rfl
    · exfalso
      have hce : c = ' ' ∧ d = '-' ∧ e = ' ' := by
        revert hsw
        simp [sDash, startsWithL]
        intro h1 h2 h3
        exact ⟨h1.symm, h2.symm, h3.symm⟩
      rcases hce with ⟨rfl, rfl, rfl⟩
      have hsw2 : startsWithL sDash (' ' :: '-' :: ' ' :: rest) = true := by
        simp [sDash, startsWithL]
      rw [he, hasSub_of_prefix_at hsw2] at hsub
      exact absurd hsub (by simp)

/-- A length-2 suffix test only looks at the final two characters. -/
theorem endsWith2_eval (M : List Char) (y x a b2 : Char) :
    endsWithL [a, b2] (M ++ [y, x]) = ((b2 == x) && (a == y)) := by
  unfold endsWithL
  rw [List.reverse_append]
  simp [startsWithL]

theorem splitFirstOn_boundary {name b : List Char}
    (hsub : hasSubL sDash name = false)
    (hend : endsWithL [' ', '-'] name = false) :
    splitFirstOn sDash (name ++ sDash ++ b) = some (name, b) := by
  induction name with
  | nil =>
    show splitFirstOn sDash (' ' :: '-' :: ' ' :: b) = some ([], b)
    unfold splitFirstOn
    rw [show startsWithL sDash (' ' :: '-' :: ' ' :: b) = true by
      simp [sDash, startsWithL]]
    simp [sDash]
  | cons c name ih =>
    have hfalse := aux_no_sep_prefix (b := b) hsub hend [] (c :: name) rfl
      (by simp)
    rw [List.cons_append, List.cons_append]
    unfold splitFirstOn
    have hfalse2 : startsWithL sDash (c :: (name ++ sDash ++ b)) = false := by
      rw [show c :: (name ++ sDash ++ b) = (c :: name) ++ sDash ++ b by simp]
      exact hfalse
    rw [hfalse2]
    simp only [Bool.false_eq_true, if_false]
    have hsub2 : hasSubL sDash name = false := by
      unfold hasSubL at hsub
      rcases name with _ | ⟨d, r⟩
      · rfl
      · revert hsub
        rw [Bool.or_eq_false_iff]
        intro h
        exact h.2
    have hend2 : endsWithL [' ', '-'] name = false := by
      rcases name with _ | ⟨d, r⟩
      · rfl
      rcases r with _ | ⟨e, r2⟩
      · unfold endsWithL
        simp [startsWithL]
      · rcases List.eq_nil_or_concat' (d :: e :: r2) with h0 | ⟨L, x, hL⟩
        · simp at h0
        rcases List.eq_nil_or_concat' L with h1 | ⟨M, y, hM⟩
        · rw [h1] at hL
          simp at hL
        rw [hM, show (M ++ [y]) ++ [x] = M ++ [y, x] by simp] at hL
        rw [hL] at hend ⊢
        rw [show c :: (M ++ [y, x]) = (c :: M) ++ [y, x] by simp] at hend
        rw [endsWith2_eval] at hend
        rw [endsWith2_eval]
        exact hend
    rw [ih hsub2 hend2]
    rfl

theorem startsWithL_iff {p : List Char} :
    ∀ {l : List Char}, startsWithL p l = true ↔ ∃ t, l = p ++ t := by
  induction p with
  | nil => intro l; simp [startsWithL]
  | cons pc p ih =>
    intro l
    rcases l with _ | ⟨c, cs⟩
    · simp [startsWithL]
    · unfold startsWithL
      rw [Bool.and_eq_true, beq_iff_eq, ih]
      constructor
      · rintro ⟨rfl, t, rfl⟩
        exact ⟨t, rfl⟩
      · rintro ⟨t, ht⟩
        simp only [List.cons_append, List.cons.injEq] at ht
        exact ⟨ht.1.symm, t, ht.2⟩

/-- A fully alphabetic marker that is not a prefix of the name is not a
prefix of the whole rendered line either: the spill characters after the
name (space, dash, digits) are not alphabetic. -/
theorem not_startsWith_line {p name rest : List Char}
    (hp : ∀ c ∈ p, c.isAlpha = true)
    (hn : startsWithL p name = false)
    (hr : ∀ x m, rest = x :: m → x.isAlpha = false) :
    startsWithL p (name ++ rest) = false := by
  rcases hb : startsWithL p (name ++ rest) with _ | _
  · rfl
  exfalso
  obtain ⟨t, ht⟩ := startsWithL_iff.mp hb
  rcases List.append_eq_append_iff.mp ht with ⟨m, hc, hd⟩ | ⟨m, hc, hd⟩
  · -- p = name ++ m and rest = m ++ t
    rcases m with _ | ⟨x, m2⟩
    · rw [List.append_nil] at hc
      have hself := startsWithL_self_append name []
      rw [List.append_nil] at hself
      rw [hc, hself] at hn
      exact absurd hn (by simp)
    · have hxp : x ∈ p := by
        rw [hc]
        simp
      have h1 := hp x hxp
      have h2 := hr x (m2 ++ t) (by rw [hd]; simp)
      rw [h1] at h2
      exact absurd h2 (by simp)
  · -- name = p ++ m: p is a prefix of name after all
    rw [hc, startsWithL_self_append] at hn
    exact absurd hn (by simp)

theorem renderTok_chars {t : RTok} {c : Char} (hc : c ∈ renderTok t) :
    c.isDigit = true ∨ c = ' ' ∨ c = '*' := by
  rcases t with n | ⟨w, n⟩
  · exact Or.inl (natStr_char_facts hc).1
  · unfold renderTok at hc
    rw [List.mem_append, List.mem_append] at hc
    rcases hc with (hc | hc) | hc
    · exact Or.inl (natStr_char_facts hc).1
    · simp at hc
      rcases hc with hc | hc | hc <;> simp [hc]
    · exact Or.inl (natStr_char_facts hc).1

theorem renderTok_no_comma (t : RTok) :
    containsC ',' (renderTok t) = false := by
  rw [containsC_eq_false]
  intro hm
  rcases renderTok_chars hm with h | h | h
  · exact absurd h (by decide)
  · exact absurd h (by decide)
  · exact absurd h (by decide)

theorem renderTok_no_semi (t : RTok) :
    containsC ';' (renderTok t) = false := by
  rw [containsC_eq_false]
  intro hm
  rcases renderTok_chars hm with h | h | h
  · exact absurd h (by decide)
  · exact absurd h (by decide)
  · exact absurd h (by decide)

theorem renderTok_head (t : RTok) :
    ∃ c r, renderTok t = c :: r ∧ isSpaceC c = false := by
  rcases t with n | ⟨w, n⟩
  · obtain ⟨c, r, hcr, hm⟩ := natStr_head n
    exact ⟨c, r, hcr, (natStr_char_facts hm).2.1⟩
  · obtain ⟨c, r, hcr, hm⟩ := natStr_head w
    refine ⟨c, r ++ ([' ', '*', ' '] ++ natStr n), ?_,
      (natStr_char_facts hm).2.1⟩
    show natStr w ++ [' ', '*', ' '] ++ natStr n =
      c :: (r ++ ([' ', '*', ' '] ++ natStr n))
    rw [hcr]
    simp

theorem renderTok_ends (t : RTok) :
    ∃ a d, renderTok t = a ++ [d] ∧ isSpaceC d = false := by
  rcases t with n | ⟨w, n⟩
  · obtain ⟨a, d, had, hm⟩ := natStr_concat n
    exact ⟨a, d, had, (natStr_char_facts hm).2.1⟩
  · obtain ⟨a, d, had, hm⟩ := natStr_concat n
    refine ⟨natStr w ++ [' ', '*', ' '] ++ a, d, ?_,
      (natStr_char_facts hm).2.1⟩
    show natStr w ++ [' ', '*', ' '] ++ natStr n =
      natStr w ++ [' ', '*', ' '] ++ a ++ [d]
    rw [had]
    simp

theorem pyStrip_renderTok (t : RTok) : pyStripL (renderTok t) = renderTok t :=
  pyStrip_id_of_ends
    (by obtain ⟨c, r, h1, h2⟩ := renderTok_head t; exact ⟨c, r, h1, h2⟩)
    (by obtain ⟨a, d, h1, h2⟩ := renderTok_ends t; exact ⟨a, d, h1, h2⟩)

theorem pyStrip_space_renderTok (t : RTok) :
    pyStripL (' ' :: renderTok t) = renderTok t := by
  rw [pyStrip_cons_space (by decide)]
  exact pyStrip_renderTok t

theorem pySplitC_append_nocontain {c : Char} {a : List Char}
    (h : containsC c a = false) (b : List Char) :
    pySplitC c (a ++ c :: b) = a :: pySplitC c b := by
  induction a with
  | nil =>
    show pySplitC c (c :: b) = [] :: pySplitC c b
    conv_lhs => rw [pySplitC]
    simp
  | cons d a ih =>
    have hdc : (d == c) = false := by
      rw [beq_eq_false_iff_ne]
      intro hdc
      rw [containsC_eq_false] at h
      exact h (by simp [hdc])
    rw [List.cons_append]
    conv_lhs => rw [pySplitC]
    rw [hdc]
    simp only [Bool.false_eq_true, if_false]
    rw [ih (by
      rw [containsC_eq_false] at h ⊢
      exact fun hm => h (by simp [hm]))]

theorem pySplitC_nocontain {c : Char} {a : List Char}
    (h : containsC c a = false) : pySplitC c a = [a] := by
  induction a with
  | nil => rfl
  | cons d a ih =>
    have hdc : (d == c) = false := by
      rw [beq_eq_false_iff_ne]
      intro hdc
      rw [containsC_eq_false] at h
      exact h (by simp [hdc])
    conv_lhs => rw [pySplitC]
    rw [hdc]
    simp only [Bool.false_eq_true, if_false]
    rw [ih (by
      rw [containsC_eq_false] at h ⊢
      exact fun hm => h (by simp [hm]))]

theorem pySplitC_cons_ne {c d : Char} (hdc : (d == c) = false)
    (x : List Char) {g : List Char} {gs : List (List Char)}
    (hx : pySplitC c x = g :: gs) :
    pySplitC c (d :: x) = (d :: g) :: gs := by
  conv_lhs => rw [pySplitC]
  rw [hdc]
  simp only [Bool.false_eq_true, if_false]
  rw [hx]

theorem renderGroup_no_comma_toks {g : List RTok} :
    ∀ x ∈ g.map renderTok, containsC ',' x = false := by
  intro x hx
  rw [List.mem_map] at hx
  obtain ⟨t, _, rfl⟩ := hx
  exact renderTok_no_comma t

/-- The comma split of a rendered group: the first token exact, the rest
with the separator's trailing space attached. -/
theorem split_renderGroup (t0 : RTok) (ts : List RTok) :
    pySplitC ',' (renderGroup (t0 :: ts)) =
      renderTok t0 :: ts.map (fun t => ' ' :: renderTok t) := by
  induction ts generalizing t0 with
  | nil =>
    show pySplitC ',' (renderTok t0) = [renderTok t0]
    exact pySplitC_nocontain (renderTok_no_comma t0)
  | cons t1 ts ih =>
    have hrg : renderGroup (t0 :: t1 :: ts) =
        renderTok t0 ++ ',' :: (' ' :: renderGroup (t1 :: ts)) := by
      unfold renderGroup
      rw [List.map_cons, List.map_cons]
      conv_lhs => rw [joinSep]
      simp
    rw [hrg, pySplitC_append_nocontain (renderTok_no_comma t0)]
    rw [pySplitC_cons_ne (by decide) _ (ih t1)]
    simp

theorem processPart_bare (st : Nat × List ExSet) (n : Nat) :
    processPart st (natStr n) = (st.1, st.2 ++ [⟨st.1, n⟩]) := by
  unfold processPart
  rw [natStr_no_star n]
  simp only [Bool.false_eq_true, if_false]
  rw [pyIsdigit_natStr n]
  simp [natOfDigits_natStr]

theorem wrTryAt_render (w n : Nat) :
    wrTryAt (natStr w ++ ' ' :: '*' :: ' ' :: natStr n) = some (w, n) := by
  unfold wrTryAt
  rw [takeWhile_append_stop (fun d hd => (natStr_char_facts hd).1)
    (by decide) _]
  rw [if_neg (by simp [natStr_ne_nil w])]
  rw [show (natStr w ++ ' ' :: '*' :: ' ' :: natStr n).drop
      (natStr w).length = ' ' :: '*' :: ' ' :: natStr n from
    List.drop_left _ _]
  rw [show (' ' :: '*' :: ' ' :: natStr n).dropWhile isSpaceC =
      '*' :: ' ' :: natStr n by
    rw [List.dropWhile_cons]
    simp [isSpaceC]]
  simp only []
  rw [show (' ' :: natStr n).dropWhile isSpaceC = natStr n by
    rw [List.dropWhile_cons]
    have hh := natStr_head n
    obtain ⟨c, r, hcr, hm⟩ := hh
    simp only [show isSpaceC ' ' = true by decide, if_true]
    rw [hcr, List.dropWhile_cons, (natStr_char_facts (by rw [hcr]; simp :
      c ∈ natStr n)).2.1]
    simp]
  rw [takeWhile_all (fun d hd => (natStr_char_facts hd).1)]
  rw [if_neg (by simp [natStr_ne_nil n])]
  rw [natOfDigits_natStr, natOfDigits_natStr]

theorem reSearchWR_of_tryAt {cs : List Char} {p : Nat × Nat}
    (h : wrTryAt cs = some p) : reSearchWR cs = some p := by
  rcases cs with _ | ⟨c, rest⟩
  · unfold wrTryAt at h
    simp at h
  · unfold reSearchWR
    rw [h]

theorem processPart_wch (st : Nat × List ExSet) (w n : Nat) :
    processPart st (natStr w ++ ' ' :: '*' :: ' ' :: natStr n) =
      (w, st.2 ++ [⟨w, n⟩]) := by
  unfold processPart
  rw [show containsC '*' (natStr w ++ ' ' :: '*' :: ' ' :: natStr n) =
      true by
    rw [containsC_eq_mem]
    simp]
  simp only [if_true]
  rw [reSearchWR_of_tryAt (wrTryAt_render w n)]

theorem processPart_renderTok (st : Nat × List ExSet) (t : RTok) :
    processPart st (renderTok t) = semTokStep st t := by
  rcases t with n | ⟨w, n⟩
  · rw [show renderTok (RTok.bare n) = natStr n from rfl, processPart_bare]
    rfl
  · rw [show renderTok (RTok.wch w n) =
      natStr w ++ ' ' :: '*' :: ' ' :: natStr n by
      unfold renderTok
      simp, processPart_wch]
    rfl

theorem processParts_toks (g : List RTok) :
    ∀ st, processParts st (g.map renderTok) = g.foldl semTokStep st := by
  induction g with
  | nil => intro st; rfl
  | cons t g ih =>
    intro st
    unfold processParts at ih ⊢
    rw [List.map_cons, List.foldl_cons, processPart_renderTok,
      List.foldl_cons]
    exact ih (semTokStep st t)

theorem map_strip_space_toks (ts : List RTok) :
    (ts.map (fun t => ' ' :: renderTok t)).map pyStripL =
      ts.map renderTok := by
  induction ts with
  | nil => rfl
  | cons t ts ih =>
    rw [List.map_cons, List.map_cons, pyStrip_space_renderTok, ih,
      List.map_cons]

theorem renderGroup_head (t0 : RTok) (ts : List RTok) :
    ∃ c r, renderGroup (t0 :: ts) = c :: r ∧ isSpaceC c = false := by
  obtain ⟨c, r, hcr, hsp⟩ := renderTok_head t0
  rcases ts with _ | ⟨t1, ts2⟩
  · exact ⟨c, r, by simpa [renderGroup, joinSep] using hcr, hsp⟩
  · refine ⟨c, r ++ [',', ' '] ++
      joinSep [',', ' '] ((t1 :: ts2).map renderTok), ?_, hsp⟩
    unfold renderGroup
    rw [List.map_cons,
      show (t1 :: ts2).map renderTok =
        renderTok t1 :: ts2.map renderTok from List.map_cons _ _ _]
    conv_lhs => rw [joinSep]
    rw [hcr]
    simp

theorem renderGroup_ends (t0 : RTok) (ts : List RTok) :
    ∃ a d, renderGroup (t0 :: ts) = a ++ [d] ∧ isSpaceC d = false := by
  unfold renderGroup
  refine joinSep_ends (by simp) ?_
  intro x hx
  rw [List.mem_map] at hx
  obtain ⟨t, _, rfl⟩ := hx
  exact renderTok_ends t

theorem pyStrip_renderGroup (t0 : RTok) (ts : List RTok) :
    pyStripL (renderGroup (t0 :: ts)) = renderGroup (t0 :: ts) :=
  pyStrip_id_of_ends (renderGroup_head t0 ts) (renderGroup_ends t0 ts)

theorem pyStrip_space_renderGroup (t0 : RTok) (ts : List RTok) :
    pyStripL (' ' :: renderGroup (t0 :: ts)) = renderGroup (t0 :: ts) := by
  rw [pyStrip_cons_space (by decide)]
  exact pyStrip_renderGroup t0 ts

theorem renderGroup_no_semi (g : List RTok) :
    containsC ';' (renderGroup g) = false := by
  rw [containsC_eq_false]
  intro hm
  rcases mem_joinSep hm with h | ⟨x, hx, hcx⟩
  · simp at h
  · rw [List.mem_map] at hx
    obtain ⟨t, _, rfl⟩ := hx
    have := renderTok_no_semi t
    rw [containsC_eq_false] at this
    exact this hcx

theorem pySplitC_semi_join (gs : List (List Char)) (hne : gs ≠ [])
    (hno : ∀ x ∈ gs, containsC ';' x = false) :
    pySplitC ';' (' ' :: joinSep [';', ' '] gs) =
      gs.map (fun x => ' ' :: x) := by
  induction gs with
  | nil => exact absurd rfl hne
  | cons x gs ih =>
    rcases gs with _ | ⟨y, r⟩
    · show pySplitC ';' (' ' :: joinSep [';', ' '] [x]) = [' ' :: x]
      rw [show joinSep [';', ' '] [x] = x from rfl]
      exact pySplitC_cons_ne (by decide) x
        (pySplitC_nocontain (hno x (by simp)))
    · have hj : joinSep [';', ' '] (x :: y :: r) =
          x ++ ';' :: (' ' :: joinSep [';', ' '] (y :: r)) := by
        conv_lhs => rw [joinSep]
        simp
      rw [hj]
      rw [show ' ' :: (x ++ ';' :: (' ' :: joinSep [';', ' '] (y :: r))) =
        (' ' :: x) ++ ';' :: (' ' :: joinSep [';', ' '] (y :: r)) from rfl]
      rw [pySplitC_append_nocontain (by
        rw [containsC_eq_false]
        intro hm
        rcases List.mem_cons.mp hm with h | h
        · exact absurd h.symm (by decide)
        · have := hno x (by simp)
          rw [containsC_eq_false] at this
          exact this h)]
      rw [ih (by simp) (fun z hz => hno z (by simp [List.mem_cons.mp hz]))]
      rfl

theorem processChunk (g : List RTok) (hg : g ≠ []) (st : Nat × List ExSet) :
    processParts st ((pySplitC ',' (pyStripL (' ' :: renderGroup g))).map
      pyStripL) = g.foldl semTokStep st := by
  rcases g with _ | ⟨t0, ts⟩
  · exact absurd rfl hg
  rw [pyStrip_space_renderGroup, split_renderGroup, List.map_cons,
    pyStrip_renderTok, map_strip_space_toks]
  exact processParts_toks (t0 :: ts) st

/-- The rep part of a rendered line is parsed to exactly the semantic
sets of the rep list. -/
theorem parseReps_render (fw : Nat) (groups : List (List RTok))
    (hne : groups ≠ []) (hgne : ∀ g ∈ groups, g ≠ []) :
    parseReps fw (' ' :: joinSep [';', ' '] (groups.map renderGroup)) =
      semAll fw groups := by
  rcases groups with _ | ⟨g0, gs⟩
  · exact absurd rfl hne
  rcases gs with _ | ⟨g1, gs2⟩
  · -- single weight group: no semicolon, straight comma split
    unfold parseReps
    have hnosemi : containsC ';'
        (' ' :: joinSep [';', ' '] ([g0].map renderGroup)) = false := by
      rw [containsC_eq_false]
      intro hm
      rcases List.mem_cons.mp hm with h | h
      · exact absurd h.symm (by decide)
      · rw [show [g0].map renderGroup = [renderGroup g0] from rfl,
          show joinSep [';', ' '] [renderGroup g0] = renderGroup g0
            from rfl] at h
        have := renderGroup_no_semi g0
        rw [containsC_eq_false] at this
        exact this h
    rw [hnosemi]
    simp only [Bool.false_eq_true, if_false]
    rcases hg0 : g0 with _ | ⟨t0, ts⟩
    · exact absurd hg0 (hgne g0 (by simp))
    rw [show [t0 :: ts].map renderGroup = [renderGroup (t0 :: ts)]
      from rfl, show joinSep [';', ' '] [renderGroup (t0 :: ts)] =
      renderGroup (t0 :: ts) from rfl]
    rw [pySplitC_cons_ne (by decide) _ (split_renderGroup t0 ts),
      List.map_cons, pyStrip_space_renderTok, map_strip_space_toks]
    show (processParts (fw, []) ((t0 :: ts).map renderTok)).2 = _
    rw [processParts_toks]
    rfl
  · -- at least two weight groups: the semicolon branch
    unfold parseReps
    have hj : joinSep [';', ' '] ((g0 :: g1 :: gs2).map renderGroup) =
        renderGroup g0 ++ ';' :: (' ' :: joinSep [';', ' ']
          ((g1 :: gs2).map renderGroup)) := by
      rw [List.map_cons, List.map_cons]
      conv_lhs => rw [joinSep]
      simp
    have hsemi : containsC ';'
        (' ' :: joinSep [';', ' '] ((g0 :: g1 :: gs2).map renderGroup)) =
        true := by
      rw [containsC_eq_mem, hj]
      simp
    rw [hsemi]
    simp only [if_true]
    rw [pySplitC_semi_join ((g0 :: g1 :: gs2).map renderGroup) (by simp)
      (by
        intro x hx
        rw [List.mem_map] at hx
        obtain ⟨g, _, rfl⟩ := hx
        exact renderGroup_no_semi g)]
    rw [List.map_map]
    have hfold : ∀ (grs : List (List RTok)) (st : Nat × List ExSet),
        (∀ g ∈ grs, g ≠ []) →
        ((grs.map (fun g => ' ' :: renderGroup g)).foldl
          (fun st g2 => processParts st
            ((pySplitC ',' (pyStripL g2)).map pyStripL)) st) =
        grs.foldl (fun st g => g.foldl semTokStep st) st := by
      intro grs
      induction grs with
      | nil => intro st _; rfl
      | cons g grs ih =>
        intro st hgs
        rw [List.map_cons, List.foldl_cons, List.foldl_cons,
          processChunk g (hgs g (by simp))]
        exact ih _ (fun z hz => hgs z (by simp [hz]))
    show ((((g0 :: g1 :: gs2).map (fun g => ' ' :: renderGroup g)).foldl
      (fun st g2 => processParts st
        ((pySplitC ',' (pyStripL g2)).map pyStripL)) (fw, []))).2 = _
    rw [hfold (g0 :: g1 :: gs2) (fw, []) hgne]
    rfl

theorem takeWhile_append_drop (p : Char → Bool) (a : List Char) :
    a.takeWhile p ++ a.drop (a.takeWhile p).length = a := by
  induction a with
  | nil => rfl
  | cons c a ih =>
    rw [List.takeWhile_cons]
    rcases hp : p c with _ | _
    · simp
    · simp only [if_true]
      rw [List.cons_append, List.length_cons, List.drop_succ_cons]
      rw [ih]

theorem mem_takeWhile_sat {p : Char → Bool} {a : List Char} {c : Char}
    (hc : c ∈ a.takeWhile p) : p c = true := by
  induction a with
  | nil => simp at hc
  | cons d a ih =>
    rw [List.takeWhile_cons] at hc
    rcases hp : p d with _ | _
    · rw [hp] at hc
      simp at hc
    · rw [hp] at hc
      simp only [if_true] at hc
      rcases List.mem_cons.mp hc with h | h
      · rw [h]
        exact hp
      · exact ih h

theorem mem_pySplitC {sep x : Char} {cs : List Char} (hx : x ∈ cs)
    (hne : x ≠ sep) : ∃ g ∈ pySplitC sep cs, x ∈ g := by
  induction cs with
  | nil => simp at hx
  | cons c cs ih =>
    unfold pySplitC
    rcases hcs : (c == sep) with _ | _
    · rw [if_neg (by simp [hcs])]
      rcases List.mem_cons.mp hx with h | h
      · subst h
        rcases hsp : pySplitC sep cs with _ | ⟨g, gs⟩
        · exact ⟨[x], by simp, by simp⟩
        · exact ⟨x :: g, by simp, by simp⟩
      · rcases ih h with ⟨g', hg', hxg'⟩
        rcases hsp : pySplitC sep cs with _ | ⟨g, gs⟩
        · rw [hsp] at hg'
          simp at hg'
        · rw [hsp] at hg'
          rcases List.mem_cons.mp hg' with h2 | h2
          · subst h2
            exact ⟨c :: g', by simp, List.mem_cons_of_mem c hxg'⟩
          · exact ⟨g', List.mem_cons_of_mem _ h2, hxg'⟩
    · rw [beq_iff_eq] at hcs
      subst hcs
      rw [if_pos (by simp)]
      have hxcs : x ∈ cs := by
        rcases List.mem_cons.mp hx with h | h
        · exact absurd h hne
        · exact h
      rcases ih hxcs with ⟨g', hg', hxg'⟩
      exact ⟨g', List.mem_cons_of_mem _ hg', hxg'⟩

theorem digits_then_spaces {a : List Char} {x : Char} (hx : x ∈ a)
    (hb : (a.drop (a.takeWhile Char.isDigit).length).all isSpaceC = true ∨
          (a.drop (a.takeWhile Char.isDigit).length) = []) :
    (isSpaceC x || x.isDigit) = true := by
  have hsplit := takeWhile_append_drop Char.isDigit a
  rw [← hsplit] at hx
  rcases List.mem_append.mp hx with h | h
  · have := mem_takeWhile_sat h
    simp [this]
  · rcases hb with hb | hb
    · have := List.all_eq_true.mp hb x h
      simp [this]
    · rw [hb] at h
      simp at h

theorem bwChunkOk_mem {al at2 : Bool} {cs : List Char} {x : Char}
    (h : bwChunkOk al at2 cs = true) (hx : x ∈ cs) :
    (isSpaceC x || x.isDigit) = true := by
  simp only [bwChunkOk] at h
  rw [Bool.and_eq_true] at h
  rcases h with ⟨_, h2⟩
  have h2' : ((if al then cs.dropWhile isSpaceC else cs).drop
      ((if al then cs.dropWhile isSpaceC else cs).takeWhile Char.isDigit).length).all
      isSpaceC = true ∨
      ((if al then cs.dropWhile isSpaceC else cs).drop
      ((if al then cs.dropWhile isSpaceC else cs).takeWhile Char.isDigit).length) = [] := by
    rcases hat : at2 with _ | _
    · rw [hat] at h2
      rw [if_neg (by simp)] at h2
      right
      exact List.isEmpty_iff.mp h2
    · rw [hat] at h2
      rw [if_pos rfl] at h2
      left
      exact h2
  rcases hal : al with _ | _
  · rw [hal] at h2'
    rw [if_neg (by simp)] at h2'
    exact digits_then_spaces hx h2'
  · rw [hal] at h2'
    rw [if_pos rfl] at h2'
    have hsp := List.takeWhile_append_dropWhile (p := isSpaceC) (l := cs)
    rw [← hsp] at hx
    rcases List.mem_append.mp hx with h3 | h3
    · have := mem_takeWhile_sat h3
      simp [this]
    · exact digits_then_spaces h3 h2'

theorem bwChunksOk_mem {gs : List (List Char)} {g : List Char} {x : Char}
    (h : bwChunksOk gs = true) (hg : g ∈ gs) (hx : x ∈ g) :
    (isSpaceC x || x.isDigit) = true := by
  induction gs with
  | nil => simp at hg
  | cons c gs ih =>
    rcases gs with _ | ⟨c2, gs2⟩
    · simp only [List.mem_singleton] at hg
      subst hg
      exact bwChunkOk_mem (by simpa [bwChunksOk] using h) hx
    · rw [show bwChunksOk (c :: c2 :: gs2) =
        (bwChunkOk true true c && bwChunksOk (c2 :: gs2)) from rfl] at h
      rw [Bool.and_eq_true] at h
      rcases h with ⟨h1, h2⟩
      rcases List.mem_cons.mp hg with hge | hge
      · subst hge
        exact bwChunkOk_mem h1 hx
      · exact ih h2 hge

theorem bwTailOk_mem {cs : List Char} {x : Char} (h : bwTailOk cs = true)
    (hx : x ∈ cs) (hnc : x ≠ ',') : (isSpaceC x || x.isDigit) = true := by
  rcases mem_pySplitC hx hnc with ⟨g, hg, hxg⟩
  unfold bwTailOk at h
  rcases hsp : pySplitC ',' cs with _ | ⟨c, rest⟩
  · rw [hsp] at hg
    simp at hg
  · rw [hsp] at hg h
    rcases rest with _ | ⟨c2, rest2⟩
    · dsimp only at h
      simp only [List.mem_singleton] at hg
      subst hg
      exact bwChunkOk_mem h hxg
    · dsimp only at h
      rw [Bool.and_eq_true] at h
      rcases h with ⟨h1, h2⟩
      rcases List.mem_cons.mp hg with hge | hge
      · subst hge
        exact bwChunkOk_mem h1 hxg
      · exact bwChunksOk_mem h2 hge hxg

theorem bodyweightMatch_no_star {line : List Char}
    (h : containsC '*' line = true) : bodyweightMatch line = none := by
  have hmem : '*' ∈ line := by
    rcases List.any_eq_true.mp h with ⟨d, hd, he⟩
    rw [beq_iff_eq] at he
    rw [← he]
    exact hd
  have hsplit := takeWhile_append_drop (fun c => !c.isDigit) line
  simp only [bodyweightMatch]
  split_ifs with h1 h2 h3 h4
  · rfl
  · rfl
  · rfl
  · rfl
  · exfalso
    have hAll : ∀ x ∈ line.takeWhile (fun c => !c.isDigit), bwNameChar x = true := by
      simpa using h2
    have hTail : bwTailOk
        (line.drop (line.takeWhile (fun c => !c.isDigit)).length) = true := by
      simpa using h4
    rw [← hsplit] at hmem
    rcases List.mem_append.mp hmem with hpre | htail
    · exact absurd (hAll '*' hpre) (by decide)
    · exact absurd (bwTailOk_mem hTail htail (by decide)) (by decide)

theorem head_not_space_of_stripped {c : Char} {rest : List Char}
    (h : pyStripL (c :: rest) = c :: rest) : isSpaceC c = false := by
  by_contra hc
  rw [Bool.not_eq_false] at hc
  have hl : (pyStripL (c :: rest)).length ≤ rest.length := by
    unfold pyStripL rstripL lstripL
    rw [List.dropWhile_cons]
    rw [if_pos hc]
    calc ((rest.dropWhile isSpaceC).reverse.dropWhile isSpaceC).reverse.length
        ≤ (rest.dropWhile isSpaceC).length := by
          rw [List.length_reverse]
          calc ((rest.dropWhile isSpaceC).reverse.dropWhile isSpaceC).length
              ≤ (rest.dropWhile isSpaceC).reverse.length :=
                (List.dropWhile_sublist isSpaceC).length_le
            _ = _ := List.length_reverse _
      _ ≤ rest.length := (List.dropWhile_sublist isSpaceC).length_le
  rw [h] at hl
  simp at hl

theorem dropWhile_space_star (tail : List Char) :
    (' ' :: '*' :: ' ' :: tail).dropWhile isSpaceC = '*' :: ' ' :: tail := by
  rw [List.dropWhile_cons, if_pos (by decide), List.dropWhile_cons,
    if_neg (by decide)]

theorem whm_render (w : Nat) (q : Option (List Char)) (tail : List Char)
    (hq : ∀ s, q = some s → s ≠ [] ∧
      s.all (fun c => !(c == ')') && !(c == '*')) = true) :
    weightHeadMatch (natStr w ++ renderQual q ++ ' ' :: '*' :: ' ' :: tail) =
      some w := by
  rcases q with _ | s
  · rw [show natStr w ++ renderQual none ++ ' ' :: '*' :: ' ' :: tail =
      natStr w ++ ' ' :: '*' :: ' ' :: tail by simp [renderQual]]
    unfold weightHeadMatch
    rw [takeWhile_append_stop (fun d hd => (natStr_char_facts hd).1)
      (by decide) _]
    rw [if_neg (by simp [natStr_ne_nil w])]
    rw [show (natStr w ++ ' ' :: '*' :: ' ' :: tail).drop
        (natStr w).length = ' ' :: '*' :: ' ' :: tail from
      List.drop_left _ _]
    rw [dropWhile_space_star]
    rw [natOfDigits_natStr]
    rfl
  · obtain ⟨hne, hall⟩ := hq s rfl
    rw [show natStr w ++ renderQual (some s) ++ ' ' :: '*' :: ' ' :: tail =
      natStr w ++ ' ' :: '(' :: (s ++ ')' :: ' ' :: '*' :: ' ' :: tail) by
        simp [renderQual]]
    unfold weightHeadMatch
    rw [takeWhile_append_stop (fun d hd => (natStr_char_facts hd).1)
      (by decide) _]
    rw [if_neg (by simp [natStr_ne_nil w])]
    rw [show (natStr w ++ ' ' :: '(' :: (s ++ ')' :: ' ' :: '*' :: ' ' ::
        tail)).drop (natStr w).length =
        ' ' :: '(' :: (s ++ ')' :: ' ' :: '*' :: ' ' :: tail) from
      List.drop_left _ _]
    rw [show (' ' :: '(' :: (s ++ ')' :: ' ' :: '*' :: ' ' ::
        tail)).dropWhile isSpaceC =
        '(' :: (s ++ ')' :: ' ' :: '*' :: ' ' :: tail) by
      rw [List.dropWhile_cons, if_pos (by decide), List.dropWhile_cons,
        if_neg (by decide)]]
    simp only []
    rw [takeWhile_append_stop (p := fun c => !(c == ')'))
      (fun c hc => by
        have hb := List.all_eq_true.mp hall c hc
        rw [Bool.and_eq_true] at hb
        exact hb.1)
      (by decide) _]
    rw [if_neg (by simpa using hne)]
    rw [show (s ++ ')' :: ' ' :: '*' :: ' ' :: tail).drop s.length =
        ')' :: ' ' :: '*' :: ' ' :: tail from List.drop_left _ _]
    rw [natOfDigits_natStr]
    rfl

theorem renderQual_no_star (q : Option (List Char))
    (hq : ∀ s, q = some s →
      s.all (fun c => !(c == ')') && !(c == '*')) = true) :
    containsC '*' (renderQual q) = false := by
  rcases q with _ | s
  · rfl
  · rw [containsC_eq_false]
    intro hm
    rw [show renderQual (some s) = [' ', '('] ++ s ++ [')'] from rfl] at hm
    rw [List.mem_append, List.mem_append] at hm
    rcases hm with (hm | hm) | hm
    · simp only [List.mem_cons, List.mem_singleton] at hm
      rcases hm with hm | hm <;> exact absurd hm (by decide)
    · have hb := List.all_eq_true.mp (hq s rfl) '*' hm
      rw [Bool.and_eq_true] at hb
      exact absurd hb.2 (by decide)
    · simp only [List.mem_singleton] at hm
      exact absurd hm (by decide)

theorem gokb_parts {g : GLine} (hok : GOkB g = true) :
    g.name ≠ [] ∧ pyStripL g.name = g.name ∧ hasSubL sDash g.name = false ∧
    startsWithL sSKIP g.name = false ∧ startsWithL sRun g.name = false ∧
    endsWithL [' ', '-'] g.name = false ∧
    (∀ s, g.qual = some s → s ≠ [] ∧
      s.all (fun c => !(c == ')') && !(c == '*')) = true) ∧
    g.groups ≠ [] ∧ ∀ gr ∈ g.groups, gr ≠ [] := by
  rw [GOkB] at hok
  simp only [Bool.and_eq_true, and_assoc] at hok
  obtain ⟨h1, h2, h3, h4, h5, h6, hq, h7, h8⟩ := hok
  refine ⟨?_, ?_, ?_, ?_, ?_, ?_, ?_, ?_, ?_⟩
  · intro hnil
    rw [hnil] at h1
    exact absurd h1 (by decide)
  · exact beq_iff_eq.mp h2
  · simpa using h3
  · simpa using h4
  · simpa using h5
  · simpa using h6
  · intro s hs
    rw [hs] at hq
    simp only at hq
    rw [Bool.and_eq_true] at hq
    refine ⟨?_, hq.2⟩
    intro hnil
    rw [hnil] at hq
    exact absurd hq.1 (by decide)
  · intro hnil
    rw [hnil] at h7
    exact absurd h7 (by decide)
  · intro gr hgr hnil
    have := List.all_eq_true.mp h8 gr hgr
    rw [hnil] at this
    exact absurd this (by decide)

theorem semTok_foldl_acc (g : List RTok) :
    ∀ st : Nat × List ExSet, ∃ l, (g.foldl semTokStep st).2 = st.2 ++ l := by
  induction g with
  | nil => intro st; exact ⟨[], by simp⟩
  | cons t g ih =>
    intro st
    obtain ⟨l, hl⟩ := ih (semTokStep st t)
    rcases t with n | ⟨w, n⟩
    · exact ⟨⟨st.1, n⟩ :: l, by rw [List.foldl_cons, hl]; simp [semTokStep]⟩
    · exact ⟨⟨w, n⟩ :: l, by rw [List.foldl_cons, hl]; simp [semTokStep]⟩

theorem groups_foldl_acc (groups : List (List RTok)) :
    ∀ st : Nat × List ExSet,
    ∃ l, (groups.foldl (fun st gr => gr.foldl semTokStep st) st).2 =
      st.2 ++ l := by
  induction groups with
  | nil => intro st; exact ⟨[], by simp⟩
  | cons g groups ih =>
    intro st
    obtain ⟨l1, h1⟩ := semTok_foldl_acc g st
    obtain ⟨l2, h2⟩ := ih (g.foldl semTokStep st)
    exact ⟨l1 ++ l2, by rw [List.foldl_cons, h2, h1]; simp⟩

theorem semAll_ne_nil (fw : Nat) {g0 : List RTok} {gs : List (List RTok)}
    (hg0 : g0 ≠ []) : semAll fw (g0 :: gs) ≠ [] := by
  rcases g0 with _ | ⟨t, g0r⟩
  · exact absurd rfl hg0
  unfold semAll
  rw [List.foldl_cons, List.foldl_cons]
  obtain ⟨l2, h2⟩ := groups_foldl_acc gs
    (g0r.foldl semTokStep (semTokStep (fw, []) t))
  rw [h2]
  obtain ⟨l1, h1⟩ := semTok_foldl_acc g0r (semTokStep (fw, []) t)
  rw [h1]
  rcases t with n | ⟨w, n⟩ <;> simp [semTokStep]

/-- The parser reproduces the expected record on every well-formed rendered
grammar line. -/
theorem parseLine_render (g : GLine) (hok : GOkB g = true) :
    parseLineL (renderLine g) = some (expectedRec g) := by
  obtain ⟨h1, h2, h3, h4, h5, h6, hq, h7, h8⟩ := gokb_parts hok
  obtain ⟨c0, nr, hn⟩ : ∃ c r, g.name = c :: r := by
    rcases hx : g.name with _ | ⟨c, r⟩
    · exact absurd hx h1
    · exact ⟨c, r, rfl⟩
  have h2n : pyStripL (c0 :: nr) = c0 :: nr := by
    rw [← hn]
    exact h2
  have hc0 : isSpaceC c0 = false := head_not_space_of_stripped h2n
  obtain ⟨ta, td, htd, htds⟩ : ∃ a d, joinSep [';', ' ']
      (g.groups.map renderGroup) = a ++ [d] ∧ isSpaceC d = false := by
    refine joinSep_ends (by simpa using h7) ?_
    intro x hx
    rw [List.mem_map] at hx
    obtain ⟨gr, hgr, rfl⟩ := hx
    rcases gr with _ | ⟨t0, ts⟩
    · exact absurd rfl (h8 [] hgr)
    · exact renderGroup_ends t0 ts
  have hline : pyStripL (renderLine g) = renderLine g := by
    refine pyStrip_id_of_ends
      ⟨c0, nr ++ sDash ++ natStr g.weight ++ renderQual g.qual ++
        [' ', '*', ' '] ++ joinSep [';', ' '] (g.groups.map renderGroup),
        ?_, hc0⟩
      ⟨g.name ++ sDash ++ natStr g.weight ++ renderQual g.qual ++
        [' ', '*', ' '] ++ ta, td, ?_, htds⟩
    · rw [renderLine, hn]
      simp
    · rw [renderLine, htd]
      simp
  have hskip : startsWithL sSKIP (renderLine g) = false := by
    rw [show renderLine g = g.name ++ (' ' :: '-' :: ' ' ::
      (natStr g.weight ++ (renderQual g.qual ++ (' ' :: '*' :: ' ' ::
      joinSep [';', ' '] (g.groups.map renderGroup))))) by
      rw [renderLine]
      simp [sDash]]
    refine not_startsWith_line (by decide) h4 ?_
    intro x m hxm
    rw [← (List.cons.inj hxm).1]
    decide
  have hrun : startsWithL sRun (renderLine g) = false := by
    rw [show renderLine g = g.name ++ (' ' :: '-' :: ' ' ::
      (natStr g.weight ++ (renderQual g.qual ++ (' ' :: '*' :: ' ' ::
      joinSep [';', ' '] (g.groups.map renderGroup))))) by
      rw [renderLine]
      simp [sDash]]
    refine not_startsWith_line (by decide) h5 ?_
    intro x m hxm
    rw [← (List.cons.inj hxm).1]
    decide
  have hbw : bodyweightMatch (renderLine g) = none := by
    apply bodyweightMatch_no_star
    rw [containsC_eq_mem, renderLine]
    simp
  have hwrps : pyStripL (natStr g.weight ++ renderQual g.qual ++
      ' ' :: '*' :: ' ' :: joinSep [';', ' '] (g.groups.map renderGroup)) =
      natStr g.weight ++ renderQual g.qual ++ ' ' :: '*' :: ' ' ::
      joinSep [';', ' '] (g.groups.map renderGroup) := by
    obtain ⟨cw, rw2, hcw, hmw⟩ := natStr_head g.weight
    refine pyStrip_id_of_ends
      ⟨cw, rw2 ++ renderQual g.qual ++ ' ' :: '*' :: ' ' ::
        joinSep [';', ' '] (g.groups.map renderGroup), ?_,
        (natStr_char_facts hmw).2.1⟩
      ⟨natStr g.weight ++ renderQual g.qual ++ ' ' :: '*' :: ' ' :: ta,
        td, ?_, htds⟩
    · rw [hcw]
      simp
    · rw [htd]
      simp
  have hstar : splitFirstOn ['*'] (natStr g.weight ++ renderQual g.qual ++
      ' ' :: '*' :: ' ' :: joinSep [';', ' '] (g.groups.map renderGroup)) =
      some (natStr g.weight ++ renderQual g.qual ++ [' '],
        ' ' :: joinSep [';', ' '] (g.groups.map renderGroup)) := by
    rw [show natStr g.weight ++ renderQual g.qual ++ ' ' :: '*' :: ' ' ::
        joinSep [';', ' '] (g.groups.map renderGroup) =
        (natStr g.weight ++ renderQual g.qual ++ [' ']) ++ '*' ::
        (' ' :: joinSep [';', ' '] (g.groups.map renderGroup)) by simp]
    refine splitFirstOn_single _ ?_
    rw [containsC_eq_false]
    intro hm
    rw [List.mem_append, List.mem_append] at hm
    rcases hm with (hm | hm) | hm
    · have hx := natStr_no_star g.weight
      rw [containsC_eq_false] at hx
      exact hx hm
    · have hx := renderQual_no_star g.qual (fun s hs => (hq s hs).2)
      rw [containsC_eq_false] at hx
      exact hx hm
    · simp only [List.mem_singleton] at hm
      exact absurd hm (by decide)
  unfold parseLineL
  rw [hline]
  rw [if_neg (by rw [renderLine, hn]; simp)]
  rw [hskip, hrun]
  rw [if_neg (by simp)]
  rw [hbw]
  simp only []
  unfold weightPath
  rw [show renderLine g = g.name ++ sDash ++ (natStr g.weight ++
    renderQual g.qual ++ ' ' :: '*' :: ' ' :: joinSep [';', ' ']
    (g.groups.map renderGroup)) by rw [renderLine]; simp]
  rw [splitFirstOn_boundary h3 h6]
  simp only []
  rw [h2, hwrps]
  rw [whm_render g.weight g.qual
    (joinSep [';', ' '] (g.groups.map renderGroup)) hq]
  simp only []
  rw [hstar]
  simp only []
  rw [parseReps_render g.weight g.groups h7 h8]
  rcases hsem : semAll g.weight g.groups with _ | ⟨s0, srest⟩
  · exfalso
    rcases hgg : g.groups with _ | ⟨g0, gs⟩
    · exact h7 hgg
    · rw [hgg] at hsem
      exact semAll_ne_nil g.weight
        (h8 g0 (by rw [hgg]; exact List.mem_cons_self g0 gs)) hsem
  · rw [show expectedRec g =
      { exercise := g.name
        sets := semAll g.weight g.groups
        first_weight := g.weight
        first_reps := ((semAll g.weight g.groups).headD ⟨0, 0⟩).reps
        total_sets := (semAll g.weight g.groups).length
        max_weight := maxNat ((semAll g.weight g.groups).map ExSet.weight)
        max_reps := maxNat ((semAll g.weight g.groups).map ExSet.reps)
        is_bodyweight := g.weight == 0
        original_line := some (renderLine g) } from rfl]
    rw [hsem]
    simp [renderLine, sDash]

theorem natStr_4 : natStr 4 = ("4").toList := by
  rw [natStr, dif_pos (by omega)]
  decide

theorem natStr_50 : natStr 50 = ("50").toList := by
  rw [natStr, dif_neg (by omega), natStr, dif_pos (by norm_num)]
  decide

theorem natStr_60 : natStr 60 = ("60").toList := by
  rw [natStr, dif_neg (by omega), natStr, dif_pos (by norm_num)]
  decide

theorem gokb_simple {g : GLine} (hok : GOkB g = true) (w r : Nat) :
    GOkB (simpleGLine g.name w r) = true := by
  rw [GOkB] at hok ⊢
  simp only [simpleGLine] at *
  simp only [Bool.and_eq_true, and_assoc] at hok ⊢
  obtain ⟨h1, h2, h3, h4, h5, h6, _, _, _⟩ := hok
  exact ⟨h1, h2, h3, h4, h5, h6, by trivial, by trivial, by trivial⟩

/-! ### C5: parse/reconstruct roundtrip on grammar-conforming lines -/

/-- C5: the spec claims that for every line matching the weight-times-reps
grammar, parsing and then re-parsing the reconstruction
`"<exercise> - <first_weight> * <first_reps>"` reproduces the original first
set's weight and reps exactly.  This fails when the first rep token is a
weight-change token: `"bench - 50 * 60 * 4"` conforms to the grammar (it is
the rendering of the one-group line with token `60 * 4` under header weight
50), parses to the single set `(60, 4)` with `first_weight = 50`, and its
reconstruction `"bench - 50 * 4"` parses to first set `(50, 4)`: the
original first set's weight 60 is not reproduced. -/
theorem c5_counterexample :
    GOkB (⟨("bench").toList, 50, none, [[RTok.wch 60 4]]⟩ : GLine) = true ∧
    renderLine (⟨("bench").toList, 50, none, [[RTok.wch 60 4]]⟩ : GLine) =
      ("bench - 50 * 60 * 4").toList ∧
    ∃ r r2, parseLineL (("bench - 50 * 60 * 4").toList) = some r ∧
      roundtripLine r = ("bench - 50 * 4").toList ∧
      parseLineL (("bench - 50 * 4").toList) = some r2 ∧
      (r.sets.headD ⟨0, 0⟩).weight = 60 ∧
      (r.sets.headD ⟨0, 0⟩).reps = 4 ∧
      (r2.sets.headD ⟨0, 0⟩).weight = 50 := by
  refine ⟨by decide, ?_, ?_⟩
  · simp only [renderLine, renderQual, renderGroup, renderTok, joinSep,
      List.map_cons, List.map_nil]
    rw [natStr_50, natStr_60, natStr_4]
    decide
  · refine ⟨{ exercise := ("bench").toList
              sets := [⟨60, 4⟩]
              first_weight := 50
              first_reps := 4
              total_sets := 1
              max_weight := 60
              max_reps := 4
              is_bodyweight := false
              original_line := some (("bench - 50 * 60 * 4").toList) },
      { exercise := ("bench").toList
        sets := [⟨50, 4⟩]
        first_weight := 50
        first_reps := 4
        total_sets := 1
        max_weight := 50
        max_reps := 4
        is_bodyweight := false
        original_line := some (("bench - 50 * 4").toList) },
      by decide, ?_, by decide, by decide, by decide, by decide⟩
    rw [roundtripLine]
    simp only []
    rw [natStr_50, natStr_4]
    decide

/-- C5 (amended): for every well-formed grammar line, the parser succeeds,
records the header weight as `first_weight` and the first set's rep count as
`first_reps`, and re-parsing the reconstructed string
`"<exercise> - <first_weight> * <first_reps>"` yields exactly the single set
`(first_weight, first_reps)`.  The reconstruction therefore always
reproduces the first set's reps, and it reproduces the first set's weight
precisely when that weight equals the header weight — i.e. when the first
rep token is not a weight-change token. -/
theorem c5_amended (g : GLine) (hok : GOkB g = true) :
    ∃ r r2, parseLineL (renderLine g) = some r ∧
      r.first_weight = g.weight ∧
      r.first_reps = (r.sets.headD ⟨0, 0⟩).reps ∧
      parseLineL (roundtripLine r) = some r2 ∧
      r2.sets = [⟨r.first_weight, r.first_reps⟩] ∧
      (r2.sets.headD ⟨0, 0⟩).reps = (r.sets.headD ⟨0, 0⟩).reps ∧
      ((r.sets.headD ⟨0, 0⟩).weight = r.first_weight →
        r2.sets.headD ⟨0, 0⟩ = r.sets.headD ⟨0, 0⟩) := by
  refine ⟨expectedRec g,
    expectedRec (simpleGLine g.name g.weight ((expectedRec g).first_reps)),
    parseLine_render g hok, rfl, rfl, ?_, rfl, rfl, ?_⟩
  · rw [show roundtripLine (expectedRec g) =
        renderLine (simpleGLine g.name g.weight
          ((expectedRec g).first_reps)) by
      simp [roundtripLine, renderLine, simpleGLine, expectedRec,
        renderQual, renderGroup, renderTok, joinSep, sDash]]
    exact parseLine_render _ (gokb_simple hok _ _)
  · intro hw
    have hw2 : ((expectedRec g).sets.headD ⟨0, 0⟩).weight = g.weight := hw
    show (⟨g.weight, ((expectedRec g).sets.headD ⟨0, 0⟩).reps⟩ : ExSet) =
      (expectedRec g).sets.headD ⟨0, 0⟩
    rw [← hw2]

/-- C5 witness: the amended roundtrip property at the concrete grammar line
`"bench press - 100 * 5, 120 * 3, 8"`. -/
theorem c5_witness :
    GOkB (⟨("bench press").toList, 100, none,
      [[RTok.bare 5, RTok.wch 120 3, RTok.bare 8]]⟩ : GLine) = true ∧
    (∃ r r2, parseLineL (renderLine (⟨("bench press").toList, 100, none,
        [[RTok.bare 5, RTok.wch 120 3, RTok.bare 8]]⟩ : GLine)) = some r ∧
      r.first_weight = (⟨("bench press").toList, 100, none,
        [[RTok.bare 5, RTok.wch 120 3, RTok.bare 8]]⟩ : GLine).weight ∧
      r.first_reps = (r.sets.headD ⟨0, 0⟩).reps ∧
      parseLineL (roundtripLine r) = some r2 ∧
      r2.sets = [⟨r.first_weight, r.first_reps⟩] ∧
      (r2.sets.headD ⟨0, 0⟩).reps = (r.sets.headD ⟨0, 0⟩).reps ∧
      ((r.sets.headD ⟨0, 0⟩).weight = r.first_weight →
        r2.sets.headD ⟨0, 0⟩ = r.sets.headD ⟨0, 0⟩)) :=
  ⟨by decide, c5_amended _ (by decide)⟩

end FitnessCoach
